import Mathlib

/-!
Verification of the block-processing core of the lbry wallet server
(`lbry/wallet/server/block_processor.py`, `lbry/wallet/server/mempool.py`)
against its natural-language specification.

Each section shallowly embeds one piece of the Python source: pure
computations become Lean functions, stateful code becomes explicit state
passing, database/dictionary state becomes association lists or functions
into `Option`, and fallible code returns `Option`/`Except`.
-/

/-! ## Prefetcher (`Prefetcher._prefetch_blocks`)

One iteration of the fetch loop computes a batch size from the daemon
height, the already-fetched height, the byte budget `min_cache_size` and
the moving average block size `ave_size`:

    cache_room = self.min_cache_size // self.ave_size
    count = min(daemon_height - self.fetched_height, cache_room)
    count = min(500, max(count, 0))
    if not count:
        self.caught_up = True
        return False
    first = self.fetched_height + 1
-/

/-- `min_cache_size // ave_size` from `_prefetch_blocks` (Python floor
division of two positive ints). -/
def cacheRoom (minCacheSize aveSize : ℕ) : ℤ :=
  (minCacheSize / aveSize : ℕ)

/-- The fetch count computed by `Prefetcher._prefetch_blocks`:
`count = min(daemon_height - fetched_height, cache_room)` then
`count = min(500, max(count, 0))`. -/
def prefetchCount (daemonHeight fetchedHeight : ℤ) (minCacheSize aveSize : ℕ) : ℤ :=
  let count := min (daemonHeight - fetchedHeight) (cacheRoom minCacheSize aveSize)
  min 500 (max count 0)

/-- Outcome of one iteration of the loop body in `_prefetch_blocks`:
either the prefetcher marks itself caught up and fetches nothing, or it
requests `count` block hashes starting at `first = fetched_height + 1`. -/
inductive PrefetchOutcome
  | caughtUp
  | fetch (first : ℤ) (count : ℤ)
  deriving DecidableEq, Repr

/-- One iteration of the loop body of `Prefetcher._prefetch_blocks`
(`if not count: self.caught_up = True; return False` versus requesting
`count` hashes from `first = self.fetched_height + 1`). -/
def prefetchStep (daemonHeight fetchedHeight : ℤ) (minCacheSize aveSize : ℕ) :
    PrefetchOutcome :=
  let count := prefetchCount daemonHeight fetchedHeight minCacheSize aveSize
  if count = 0 then .caughtUp
  else .fetch (fetchedHeight + 1) count

/-- **C8.** Each prefetcher batch requests exactly
`count = min(500, max(0, daemon_height − fetched_height), min_cache_size // ave_size)`
block hashes starting at `fetched_height + 1`; the count is never
negative, never exceeds 500, never exceeds the byte budget divided by the
average block size; when the count is 0 the prefetcher reports itself
caught up and fetches nothing. -/
theorem prefetch_count_correct (daemonHeight fetchedHeight : ℤ)
    (minCacheSize aveSize : ℕ) (hpos : 0 < aveSize) :
    prefetchCount daemonHeight fetchedHeight minCacheSize aveSize =
      min (min 500 (max 0 (daemonHeight - fetchedHeight)))
        (cacheRoom minCacheSize aveSize) ∧
    0 ≤ prefetchCount daemonHeight fetchedHeight minCacheSize aveSize ∧
    prefetchCount daemonHeight fetchedHeight minCacheSize aveSize ≤ 500 ∧
    prefetchCount daemonHeight fetchedHeight minCacheSize aveSize ≤
      cacheRoom minCacheSize aveSize ∧
    (prefetchCount daemonHeight fetchedHeight minCacheSize aveSize = 0 →
      prefetchStep daemonHeight fetchedHeight minCacheSize aveSize = .caughtUp) ∧
    (prefetchCount daemonHeight fetchedHeight minCacheSize aveSize ≠ 0 →
      prefetchStep daemonHeight fetchedHeight minCacheSize aveSize =
        .fetch (fetchedHeight + 1)
          (prefetchCount daemonHeight fetchedHeight minCacheSize aveSize)) := by
  have hroom : (0:ℤ) ≤ cacheRoom minCacheSize aveSize := Int.ofNat_nonneg _
  refine ⟨?_, ?_, ?_, ?_, ?_, ?_⟩
  · simp only [prefetchCount]
    omega
  · simp only [prefetchCount]
    omega
  · simp only [prefetchCount]
    omega
  · simp only [prefetchCount]
    omega
  · intro h
    simp [prefetchStep, h]
  · intro h
    simp [prefetchStep, h]

/-- Witness for C8 at concrete inputs: daemon height 110, fetched height
100, a 10 MiB budget and a 1 MiB average block size. -/
theorem prefetch_count_correct_witness :
    0 < 1048576 ∧
    (prefetchCount 110 100 10485760 1048576 =
       min (min 500 (max 0 ((110:ℤ) - 100))) (cacheRoom 10485760 1048576) ∧
     0 ≤ prefetchCount 110 100 10485760 1048576 ∧
     prefetchCount 110 100 10485760 1048576 ≤ 500 ∧
     prefetchCount 110 100 10485760 1048576 ≤ cacheRoom 10485760 1048576 ∧
     (prefetchCount 110 100 10485760 1048576 = 0 →
        prefetchStep 110 100 10485760 1048576 = .caughtUp) ∧
     (prefetchCount 110 100 10485760 1048576 ≠ 0 →
        prefetchStep 110 100 10485760 1048576 =
          .fetch (100 + 1) (prefetchCount 110 100 10485760 1048576))) :=
  ⟨by norm_num, prefetch_count_correct 110 100 10485760 1048576 (by norm_num)⟩

/-! ## UTXO spend (`BlockProcessor.spend_utxo`)

    def spend_utxo(self, tx_hash: bytes, nout: int):
        hashX, amount = self.utxo_cache.pop((tx_hash, nout), (None, None))
        txin_num = self.get_pending_tx_num(tx_hash)
        if not hashX:
            hashX_value = self.db.prefix_db.hashX_utxo.get(tx_hash[:4], txin_num, nout)
            if not hashX_value:
                return
            hashX = hashX_value.hashX
            utxo_value = self.db.prefix_db.utxo.get(hashX, txin_num, nout)
            if not utxo_value:
                raise ChainError(...)
            ...stage deletes...
            return hashX
        elif amount is not None:
            ...stage deletes...
            return hashX
-/

/-- Environment of `spend_utxo`: the in-block staging map `utxo_cache`,
the pending tx-number mapping, and the `hashX_utxo`/`utxo` column reads.
`short` models `tx_hash[:4]`. -/
structure SpendEnv where
  utxoCache : ℕ × ℕ → Option (ℕ × ℕ)
  pendingTxNumMapping : ℕ → Option ℕ
  dbTxNum : ℕ → ℕ
  short : ℕ → ℕ
  hashXUtxoGet : ℕ → ℕ → ℕ → Option ℕ
  utxoGet : ℕ → ℕ → ℕ → Option ℕ

/-- `BlockProcessor.get_pending_tx_num`: the in-block mapping first, the
DB otherwise. -/
def getPendingTxNum (env : SpendEnv) (txHash : ℕ) : ℕ :=
  match env.pendingTxNumMapping txHash with
  | some n => n
  | none => env.dbTxNum txHash

/-- Marker for a raised `ChainError`. -/
inductive ChainErr
  | chainError
  deriving DecidableEq, Repr

/-- `BlockProcessor.spend_utxo`, with `.ok (some hashX)` for a normal
return, `.ok none` for the silent `return` and `.error` for
`raise ChainError`. -/
def spendUtxo (env : SpendEnv) (txHash nout : ℕ) : Except ChainErr (Option ℕ) :=
  match env.utxoCache (txHash, nout) with
  | some (hashX, _amount) => .ok (some hashX)
  | none =>
    let txinNum := getPendingTxNum env txHash
    match env.hashXUtxoGet (env.short txHash) txinNum nout with
    | none => .ok none
    | some hashX =>
      match env.utxoGet hashX txinNum nout with
      | none => .error .chainError
      | some _ => .ok (some hashX)

/-- A concrete environment in which nothing resolves: empty staging map,
no `hashX_utxo` entry, no `utxo` entry. -/
def spendEnvEmpty : SpendEnv where
  utxoCache := fun _ => none
  pendingTxNumMapping := fun _ => none
  dbTxNum := fun _ => 0
  short := fun h => h
  hashXUtxoGet := fun _ _ _ => none
  utxoGet := fun _ _ _ => none

/-- **C6, counterexample.** The claim says a spent output that is neither
in `utxo_cache` nor resolvable via `hashX_utxo` + `utxo` makes
`spend_utxo` raise `ChainError`.  In the state where the output is
missing everywhere (`hashX_utxo` has no entry), `spend_utxo` instead
returns `None` silently. -/
theorem spend_utxo_missing_no_error :
    spendEnvEmpty.utxoCache (0, 0) = none ∧
    spendEnvEmpty.hashXUtxoGet 0 0 0 = none ∧
    spendEnvEmpty.utxoGet 0 0 0 = none ∧
    spendUtxo spendEnvEmpty 0 0 = .ok none := by
  refine ⟨rfl, rfl, rfl, rfl⟩

/-- **C6, amended.** `spend_utxo` raises `ChainError` exactly when the
spent output is not in the in-block `utxo_cache`, its `hashX_utxo` entry
exists, and the corresponding `utxo` entry is missing; when even the
`hashX_utxo` entry is missing it returns `None` silently rather than
raising. -/
theorem spend_utxo_chain_error_iff (env : SpendEnv) (txHash nout : ℕ) :
    (spendUtxo env txHash nout = .error .chainError ↔
      (env.utxoCache (txHash, nout) = none ∧
       ∃ hashX, env.hashXUtxoGet (env.short txHash) (getPendingTxNum env txHash) nout
                  = some hashX ∧
         env.utxoGet hashX (getPendingTxNum env txHash) nout = none)) ∧
    (env.utxoCache (txHash, nout) = none →
     env.hashXUtxoGet (env.short txHash) (getPendingTxNum env txHash) nout = none →
     spendUtxo env txHash nout = .ok none) := by
  rcases hc : env.utxoCache (txHash, nout) with _ | ⟨hX, amt⟩
  · rcases hh : env.hashXUtxoGet (env.short txHash) (getPendingTxNum env txHash) nout
        with _ | hashX
    · simp [spendUtxo, hc, hh]
    · rcases hu : env.utxoGet hashX (getPendingTxNum env txHash) nout with _ | v
      · simp [spendUtxo, hc, hh, hu]
      · simp [spendUtxo, hc, hh, hu]
  · simp [spendUtxo, hc]

/-! ## Expiry pass (`BlockProcessor._expire_claims`)

    for abandoned_claim_hash, (tx_num, nout, normalized_name) in spent_claims.items():
        self._abandon_claim(abandoned_claim_hash, tx_num, nout, normalized_name)
        if normalized_name.startswith('@'):
            expired_channels[abandoned_claim_hash] = (tx_num, nout, normalized_name)
        else:
            self._abandon_claim(abandoned_claim_hash, tx_num, nout, normalized_name)
    for abandoned_claim_hash, (tx_num, nout, normalized_name) in expired_channels.items():
        self._abandon_claim(abandoned_claim_hash, tx_num, nout, normalized_name)
-/

/-- One entry of `spent_claims` in `_expire_claims`. -/
structure ExpiredClaim where
  claimHash : ℕ
  txNum : ℕ
  nout : ℕ
  normalizedName : String
  deriving DecidableEq, Repr

/-- `normalized_name.startswith('@')`. -/
def isChannelName (s : String) : Bool := s.startsWith "@"

/-- The `_abandon_claim` calls issued by the first loop of
`_expire_claims`, in order: every claim once, then non-channels a second
time immediately after. -/
def expireFirstPass (spentClaims : List ExpiredClaim) : List ExpiredClaim :=
  spentClaims.flatMap fun c =>
    if isChannelName c.normalizedName then [c] else [c, c]

/-- The `_abandon_claim` calls issued by the second loop of
`_expire_claims` (over `expired_channels`, in first-loop order). -/
def expireSecondPass (spentClaims : List ExpiredClaim) : List ExpiredClaim :=
  spentClaims.filter fun c => isChannelName c.normalizedName

/-- The full ordered trace of `_abandon_claim` calls of `_expire_claims`. -/
def expireAbandonCalls (spentClaims : List ExpiredClaim) : List ExpiredClaim :=
  expireFirstPass spentClaims ++ expireSecondPass spentClaims

/-- Occurrence count of a claim in the first-pass trace. -/
theorem count_expireFirstPass (spentClaims : List ExpiredClaim)
    (hnd : spentClaims.Nodup) (c : ExpiredClaim) :
    (expireFirstPass spentClaims).count c =
      if c ∈ spentClaims then (if isChannelName c.normalizedName then 1 else 2)
      else 0 := by
  induction spentClaims with
  | nil => simp [expireFirstPass]
  | cons x xs ih =>
    rcases List.nodup_cons.1 hnd with ⟨hx, hxs⟩
    have hx2 := ih hxs
    have hcount : (if isChannelName x.normalizedName then [x] else [x, x]).count c =
        if x = c then (if isChannelName c.normalizedName then 1 else 2) else 0 := by
      by_cases hxc : x = c
      · subst hxc
        by_cases hch : isChannelName x.normalizedName <;>
          simp [hch, List.count_cons]
      · have hne : ¬ (c = x) := fun h => hxc h.symm
        by_cases hch : isChannelName x.normalizedName <;>
          simp [hch, List.count_cons, hne, hxc]
    have hsplit : expireFirstPass (x :: xs) =
        (if isChannelName x.normalizedName then [x] else [x, x]) ++
          expireFirstPass xs := by
      simp [expireFirstPass, List.flatMap_cons]
    rw [hsplit, List.count_append, hcount, hx2]
    by_cases hxc : x = c
    · subst hxc
      have hnotin : x ∉ xs := hx
      simp [hnotin]
    · have hne : ¬ (c = x) := fun h => hxc h.symm
      by_cases hcm : c ∈ xs
      · simp [hxc, hcm, List.mem_cons, hne]
      · have hnm : c ∉ x :: xs := by
          simp [List.mem_cons, hne, hcm]
        simp [hxc, hcm, hnm]

/-- **C7.** In `_expire_claims`, every expired non-channel claim has
`_abandon_claim` invoked on it exactly twice, both times during the first
loop; every expired channel receives one call in the first loop and its
second call in the final loop, which runs after all first-loop calls —
hence after every non-channel claim's calls.  (`spent_claims` is a dict,
so its entries are pairwise distinct.) -/
theorem expire_claims_double_abandon (spentClaims : List ExpiredClaim)
    (hnd : spentClaims.Nodup) (c : ExpiredClaim) (hc : c ∈ spentClaims) :
    (expireAbandonCalls spentClaims).count c = 2 ∧
    (¬ isChannelName c.normalizedName →
       (expireFirstPass spentClaims).count c = 2 ∧
       (expireSecondPass spentClaims).count c = 0) ∧
    (isChannelName c.normalizedName →
       (expireFirstPass spentClaims).count c = 1 ∧
       (expireSecondPass spentClaims).count c = 1) ∧
    expireAbandonCalls spentClaims =
      expireFirstPass spentClaims ++ expireSecondPass spentClaims ∧
    (∀ d ∈ expireSecondPass spentClaims, isChannelName d.normalizedName) := by
  have h1 := count_expireFirstPass spentClaims hnd c
  have hcnt : spentClaims.count c = 1 := List.count_eq_one_of_mem hnd hc
  have h2 : (expireSecondPass spentClaims).count c =
      if isChannelName c.normalizedName then 1 else 0 := by
    unfold expireSecondPass
    by_cases hch : isChannelName c.normalizedName
    · rw [if_pos hch]
      exact List.count_eq_one_of_mem (hnd.filter _)
        (List.mem_filter.2 ⟨hc, by simp [hch]⟩)
    · rw [if_neg hch]
      exact List.count_eq_zero.2
        (fun habs => hch (by simpa using (List.mem_filter.1 habs).2))
  refine ⟨?_, ?_, ?_, rfl, ?_⟩
  · unfold expireAbandonCalls
    rw [List.count_append, h1, h2]
    by_cases hch : isChannelName c.normalizedName <;> simp [hch, hc]
  · intro hch
    rw [h1, h2]
    simp [hch, hc]
  · intro hch
    rw [h1, h2]
    simp [hch, hc]
  · intro d hd
    simpa using (List.mem_filter.1 hd).2

/-- Witness for C7: a concrete two-entry expiry set (one stream claim,
one channel). -/
theorem expire_claims_double_abandon_witness :
    ([⟨1, 10, 0, "a"⟩, ⟨2, 11, 0, "@ch"⟩] : List ExpiredClaim).Nodup ∧
    (⟨1, 10, 0, "a"⟩ : ExpiredClaim) ∈
      ([⟨1, 10, 0, "a"⟩, ⟨2, 11, 0, "@ch"⟩] : List ExpiredClaim) ∧
    (expireAbandonCalls [⟨1, 10, 0, "a"⟩, ⟨2, 11, 0, "@ch"⟩]).count ⟨1, 10, 0, "a"⟩ = 2 :=
  ⟨by decide, by decide,
   (expire_claims_double_abandon [⟨1, 10, 0, "a"⟩, ⟨2, 11, 0, "@ch"⟩]
      (by decide) ⟨1, 10, 0, "a"⟩ (by decide)).1⟩

/-! ## Reversible write layer: commit and rollback

`advance_block` stages every mutation through the PrefixDB op stack;
`flush` commits them (persisting the undo record for the block when it is
within the reorg window) and `backup_block` calls
`self.db.prefix_db.rollback(self.height + 1)` to unwind.  The op stack
itself (`lbry/wallet/server/db/revertable.py`) is not part of the given
sources, so it is modelled from the specification (§4.1). -/

/-- Pointwise update of a map into `Option`. -/
def fupd {α β : Type} [DecidableEq α] (f : α → Option β) (k : α) (v : Option β) :
    α → Option β :=
  fun k' => if k' = k then v else f k'

/-- A key-value store state: serialized keys to serialized values. -/
def KV : Type := ℕ → Option ℕ

/-- Modelled from the spec: a staged operation of the `RevertableOpStack`
(`stage_put(column, key, value)` / `stage_delete(column, key, value)`;
the caller passes the full pre-image value on delete). -/
inductive RevOp
  | put (key value : ℕ)
  | del (key value : ℕ)
  deriving DecidableEq, Repr

/-- Modelled from the spec: the inverse op recorded in the undo buffer —
"a put becomes a delete; a delete becomes a put of the saved value". -/
def RevOp.inverse : RevOp → RevOp
  | .put k v => .del k v
  | .del k v => .put k v

/-- Applying one forward op to the store. -/
def applyRevOp (kv : KV) : RevOp → KV
  | .put k v => fupd kv k (some v)
  | .del k _v => fupd kv k none

/-- Applying a batch of ops in order. -/
def applyRevOps (kv : KV) (ops : List RevOp) : KV :=
  ops.foldl applyRevOp kv

/-- Modelled from the spec: a staged batch is conflict-free — a put goes
to an absent key and a delete names the present value exactly (stage-time
conflicts are programmer errors failing with `InvariantViolated`). -/
def validOp (kv : KV) : RevOp → Prop
  | .put k _v => kv k = none
  | .del k v => kv k = some v

/-- Validity of a batch, checked sequentially against the evolving store. -/
def validOps (kv : KV) : List RevOp → Prop
  | [] => True
  | op :: rest => validOp kv op ∧ validOps (applyRevOp kv op) rest

/-- The database state: the KV store plus the persisted undo records
keyed by height. -/
structure DBState where
  kv : KV
  undo : ℕ → Option (List RevOp)

/-- Modelled from the spec: `commit(height)` writes all forward ops as
one atomic batch and persists the serialized undo buffer (the staged
inverses, replayed in reverse staging order) under `undo(height)`. -/
def commitBlock (height : ℕ) (ops : List RevOp) (s : DBState) : DBState where
  kv := applyRevOps s.kv ops
  undo := fupd s.undo height (some ((ops.map RevOp.inverse).reverse))

/-- Modelled from the spec: `rollback(height)` reads `undo(height)`,
applies its operations, then deletes the undo record; a missing undo
record is the fatal `Corrupt` condition (`none` here). -/
def rollbackBlock (height : ℕ) (s : DBState) : Option DBState :=
  match s.undo height with
  | none => none
  | some undoOps => some
      { kv := applyRevOps s.kv undoOps
        undo := fupd s.undo height none }

/-- A valid op cancels against its inverse. -/
theorem applyRevOp_inverse (kv : KV) (op : RevOp) (h : validOp kv op) :
    applyRevOp (applyRevOp kv op) op.inverse = kv := by
  cases op with
  | put k v =>
    funext k'
    simp only [validOp] at h
    by_cases hk : k' = k <;> simp [applyRevOp, RevOp.inverse, fupd, hk, h.symm]
  | del k v =>
    funext k'
    simp only [validOp] at h
    by_cases hk : k' = k <;> simp [applyRevOp, RevOp.inverse, fupd, hk, h.symm]

/-- Replaying the recorded inverses in reverse order undoes a valid
batch. -/
theorem applyRevOps_inverse (ops : List RevOp) (kv : KV) (h : validOps kv ops) :
    applyRevOps (applyRevOps kv ops) ((ops.map RevOp.inverse).reverse) = kv := by
  induction ops generalizing kv with
  | nil => rfl
  | cons op rest ih =>
    obtain ⟨hop, hrest⟩ := h
    have hsplit : ((op :: rest).map RevOp.inverse).reverse =
        (rest.map RevOp.inverse).reverse ++ [op.inverse] := by
      simp
    have happend : ∀ (kv' : KV) (a b : List RevOp),
        applyRevOps kv' (a ++ b) = applyRevOps (applyRevOps kv' a) b := by
      intro kv' a b
      simp [applyRevOps, List.foldl_append]
    calc applyRevOps (applyRevOps kv (op :: rest)) (((op :: rest).map RevOp.inverse).reverse)
        = applyRevOps (applyRevOps (applyRevOp kv op) rest)
            ((rest.map RevOp.inverse).reverse ++ [op.inverse]) := by
          rw [hsplit]; rfl
      _ = applyRevOps (applyRevOps (applyRevOps (applyRevOp kv op) rest)
            ((rest.map RevOp.inverse).reverse)) [op.inverse] := by
          rw [happend]
      _ = applyRevOps (applyRevOp kv op) [op.inverse] := by
          rw [ih (applyRevOp kv op) hrest]
      _ = kv := applyRevOp_inverse kv op hop

/-- **C1.** Advancing a block (staging a conflict-free batch of reversible
ops and committing it with its undo record at height `h`) followed by
`rollback(h)`, as `backup_block` performs, restores the key-value store —
and the undo column — to a state equal to the state before the block was
applied: advance then rollback is the identity on DB state. -/
theorem advance_then_rollback_identity (s : DBState) (height : ℕ)
    (ops : List RevOp) (hvalid : validOps s.kv ops)
    (hfresh : s.undo height = none) :
    rollbackBlock height (commitBlock height ops s) = some s := by
  have hlook : (commitBlock height ops s).undo height =
      some ((ops.map RevOp.inverse).reverse) := by
    simp [commitBlock, fupd]
  rw [rollbackBlock, hlook]
  have hkv : applyRevOps (applyRevOps s.kv ops) ((ops.map RevOp.inverse).reverse) =
      s.kv := applyRevOps_inverse ops s.kv hvalid
  have hundo : fupd (commitBlock height ops s).undo height none = s.undo := by
    funext h'
    by_cases hh : h' = height <;> simp [commitBlock, fupd, hh, hfresh.symm]
  cases s with
  | mk kv undo =>
    simp only [commitBlock] at hkv hundo ⊢
    simp [hkv, hundo]

/-- Witness for C1: a concrete one-put block over an empty store. -/
theorem advance_then_rollback_identity_witness :
    validOps (fun _ => none) [RevOp.put 7 42] ∧
    (DBState.mk (fun _ => none) (fun _ => none)).undo 3 = none ∧
    rollbackBlock 3 (commitBlock 3 [RevOp.put 7 42]
        (DBState.mk (fun _ => none) (fun _ => none))) =
      some (DBState.mk (fun _ => none) (fun _ => none)) :=
  ⟨⟨rfl, trivial⟩, rfl,
   advance_then_rollback_identity (DBState.mk (fun _ => none) (fun _ => none)) 3
     [RevOp.put 7 42] ⟨rfl, trivial⟩ rfl⟩

/-! ## Claim column families (`get_add_claim_utxo_ops`,
`get_remove_claim_utxo_ops`, `_get_invalidate_signature_ops`)

Only the `claim_to_txo` and `txo_to_claim` columns matter for the mutual
inverse invariant; the other columns staged by these paths
(`claim_expiration`, `claim_short_id`, `claim_to_channel`,
`channel_to_claim`, `repost`, `reposted_claim`) do not touch them. -/

/-- The `claim_to_txo` column value:
`(tx_num, position, root_tx_num, root_position, amount,
channel_signature_is_valid, name)`. -/
structure ClaimTxoValue where
  txNum : ℕ
  position : ℕ
  rootTxNum : ℕ
  rootPosition : ℕ
  amount : ℕ
  channelSignatureIsValid : Bool
  name : String
  deriving DecidableEq, Repr

/-- `StagedClaimtrieItem` from `block_processor.py`. -/
structure StagedClaimtrieItem where
  name : String
  normalizedName : String
  claimHash : ℕ
  amount : ℕ
  expirationHeight : ℕ
  txNum : ℕ
  position : ℕ
  rootTxNum : ℕ
  rootPosition : ℕ
  channelSignatureIsValid : Bool
  signingHash : Option ℕ
  repostedClaimHash : Option ℕ
  deriving DecidableEq, Repr

/-- `StagedClaimtrieItem.is_update`:
`(tx_num, position) != (root_tx_num, root_position)`. -/
def StagedClaimtrieItem.isUpdate (p : StagedClaimtrieItem) : Bool :=
  decide ((p.txNum, p.position) ≠ (p.rootTxNum, p.rootPosition))

/-- `StagedClaimtrieItem.invalidate_signature`: same txo with
`channel_signature_is_valid = False` and the signing hash dropped. -/
def StagedClaimtrieItem.invalidateSignature (p : StagedClaimtrieItem) :
    StagedClaimtrieItem :=
  { p with channelSignatureIsValid := false, signingHash := none }

/-- The `claim_to_txo` row staged for a pending claim. -/
def claimTxoValueOf (p : StagedClaimtrieItem) : ClaimTxoValue :=
  ⟨p.txNum, p.position, p.rootTxNum, p.rootPosition, p.amount,
   p.channelSignatureIsValid, p.name⟩

/-- The two column families of the invariant. -/
structure ClaimColState where
  claimToTxo : ℕ → Option ClaimTxoValue
  txoToClaim : ℕ × ℕ → Option (ℕ × String)

/-- Effect of `get_add_claim_utxo_ops` on the two columns:
`claim_to_txo.stage_put((claim_hash,), (tx_num, position, ...))` and
`txo_to_claim.stage_put((tx_num, position), (claim_hash, normalized_name))`. -/
def applyAddClaimUtxoOps (s : ClaimColState) (p : StagedClaimtrieItem) :
    ClaimColState where
  claimToTxo := fupd s.claimToTxo p.claimHash (some (claimTxoValueOf p))
  txoToClaim := fupd s.txoToClaim (p.txNum, p.position)
    (some (p.claimHash, p.normalizedName))

/-- Effect of `get_remove_claim_utxo_ops` on the two columns: the
matching `stage_delete`s. -/
def applyRemoveClaimUtxoOps (s : ClaimColState) (p : StagedClaimtrieItem) :
    ClaimColState where
  claimToTxo := fupd s.claimToTxo p.claimHash none
  txoToClaim := fupd s.txoToClaim (p.txNum, p.position) none

/-- Effect of `_get_invalidate_signature_ops` on the two columns: nothing
unless the claim has a signing hash and a valid signature, in which case
`claim_to_txo` is deleted and re-put at the same key and txo with
`channel_signature_is_valid = False`; `txo_to_claim` is never touched. -/
def applyInvalidateSignatureOps (s : ClaimColState) (p : StagedClaimtrieItem) :
    ClaimColState :=
  match p.signingHash with
  | none => s
  | some _ =>
    if p.channelSignatureIsValid then
      { claimToTxo := fupd s.claimToTxo p.claimHash
          (some { claimTxoValueOf p with channelSignatureIsValid := false })
        txoToClaim := s.txoToClaim }
    else s

/-- The invariant: `claim_to_txo` and `txo_to_claim` are exact mutual
inverses — every claim row points to a txo row keyed by its
`(tx_num, position)` and naming the same claim hash, and every txo row
points back to the unique claim row whose txo it is. -/
def mutualInverse (s : ClaimColState) : Prop :=
  (∀ ch v, s.claimToTxo ch = some v →
     ∃ nm, s.txoToClaim (v.txNum, v.position) = some (ch, nm)) ∧
  (∀ tn pos ch nm, s.txoToClaim (tn, pos) = some (ch, nm) →
     ∃ v, s.claimToTxo ch = some v ∧ v.txNum = tn ∧ v.position = pos)

/-- **C5.** Every staging path of a block application keeps `claim_to_txo`
and `txo_to_claim` exact mutual inverses: adding a claim row at a fresh
claim hash and fresh txo, removing an existing claim row together with its
txo row, and invalidating a channel signature (which rewrites the
`claim_to_txo` value in place) each preserve the invariant. -/
theorem claim_txo_mutual_inverse_preserved (s : ClaimColState)
    (p : StagedClaimtrieItem) (hinv : mutualInverse s) :
    (s.claimToTxo p.claimHash = none →
     s.txoToClaim (p.txNum, p.position) = none →
     mutualInverse (applyAddClaimUtxoOps s p)) ∧
    (s.claimToTxo p.claimHash = some (claimTxoValueOf p) →
     s.txoToClaim (p.txNum, p.position) = some (p.claimHash, p.normalizedName) →
     mutualInverse (applyRemoveClaimUtxoOps s p)) ∧
    (s.claimToTxo p.claimHash = some (claimTxoValueOf p) →
     mutualInverse (applyInvalidateSignatureOps s p)) := by
  obtain ⟨hfwd, hbwd⟩ := hinv
  refine ⟨?_, ?_, ?_⟩
  · intro hfresh1 hfresh2
    constructor
    · intro ch v hv
      simp only [applyAddClaimUtxoOps, fupd] at hv ⊢
      by_cases hch : ch = p.claimHash
      · subst hch
        rw [if_pos rfl] at hv
        obtain rfl : claimTxoValueOf p = v := by
          injection hv
        refine ⟨p.normalizedName, ?_⟩
        simp [claimTxoValueOf]
      · rw [if_neg hch] at hv
        obtain ⟨nm, hnm⟩ := hfwd ch v hv
        refine ⟨nm, ?_⟩
        have hne : (v.txNum, v.position) ≠ (p.txNum, p.position) := by
          intro heq
          rw [heq, hfresh2] at hnm
          exact Option.noConfusion hnm
        rw [if_neg hne]
        exact hnm
    · intro tn pos ch nm hv
      simp only [applyAddClaimUtxoOps, fupd] at hv ⊢
      by_cases htp : (tn, pos) = (p.txNum, p.position)
      · rw [if_pos htp] at hv
        obtain ⟨rfl, rfl⟩ : ch = p.claimHash ∧ nm = p.normalizedName := by
          constructor <;> injection hv with h1 <;>
            simp_all
        obtain ⟨h1, h2⟩ := Prod.mk.injEq .. ▸ htp
        refine ⟨claimTxoValueOf p, ?_, ?_, ?_⟩
        · rw [if_pos rfl]
        · simp [claimTxoValueOf]
          omega
        · simp [claimTxoValueOf]
          omega
      · rw [if_neg htp] at hv
        obtain ⟨v, hv1, hv2, hv3⟩ := hbwd tn pos ch nm hv
        have hne : ch ≠ p.claimHash := by
          intro heq
          rw [heq, hfresh1] at hv1
          exact Option.noConfusion hv1
        exact ⟨v, by rw [if_neg hne]; exact hv1, hv2, hv3⟩
  · intro hmatch1 hmatch2
    constructor
    · intro ch v hv
      simp only [applyRemoveClaimUtxoOps, fupd] at hv ⊢
      by_cases hch : ch = p.claimHash
      · rw [if_pos hch] at hv
        exact Option.noConfusion hv
      · rw [if_neg hch] at hv
        obtain ⟨nm, hnm⟩ := hfwd ch v hv
        refine ⟨nm, ?_⟩
        have hne : (v.txNum, v.position) ≠ (p.txNum, p.position) := by
          intro heq
          rw [heq, hmatch2] at hnm
          injection hnm with h1
          obtain ⟨rfl, -⟩ := Prod.mk.injEq .. ▸ h1
          exact hch rfl
        rw [if_neg hne]
        exact hnm
    · intro tn pos ch nm hv
      simp only [applyRemoveClaimUtxoOps, fupd] at hv ⊢
      by_cases htp : (tn, pos) = (p.txNum, p.position)
      · rw [if_pos htp] at hv
        exact Option.noConfusion hv
      · rw [if_neg htp] at hv
        obtain ⟨v, hv1, hv2, hv3⟩ := hbwd tn pos ch nm hv
        have hne : ch ≠ p.claimHash := by
          intro heq
          rw [heq, hmatch1] at hv1
          injection hv1 with h1
          apply htp
          rw [← hv2, ← hv3, ← h1]
          simp [claimTxoValueOf]
        exact ⟨v, by rw [if_neg hne]; exact hv1, hv2, hv3⟩
  · intro hmatch
    unfold applyInvalidateSignatureOps
    match hsig : p.signingHash with
    | none => exact ⟨hfwd, hbwd⟩
    | some sh =>
      by_cases hval : p.channelSignatureIsValid
      · rw [if_pos hval]
        constructor
        · intro ch v hv
          simp only [fupd] at hv
          by_cases hch : ch = p.claimHash
          · subst hch
            rw [if_pos rfl] at hv
            obtain rfl : ({ claimTxoValueOf p with channelSignatureIsValid := false }
                : ClaimTxoValue) = v := by injection hv
            obtain ⟨nm, hnm⟩ := hfwd p.claimHash (claimTxoValueOf p) hmatch
            exact ⟨nm, by simpa [claimTxoValueOf] using hnm⟩
          · rw [if_neg hch] at hv
            exact hfwd ch v hv
        · intro tn pos ch nm hv
          obtain ⟨v, hv1, hv2, hv3⟩ := hbwd tn pos ch nm hv
          simp only [fupd]
          by_cases hch : ch = p.claimHash
          · subst hch
            rw [if_pos rfl]
            rw [hmatch] at hv1
            injection hv1 with h1
            rw [← h1] at hv2 hv3
            refine ⟨_, rfl, ?_, ?_⟩
            · simpa [claimTxoValueOf] using hv2
            · simpa [claimTxoValueOf] using hv3
          · rw [if_neg hch]
            exact ⟨v, hv1, hv2, hv3⟩
      · rw [if_neg hval]
        exact ⟨hfwd, hbwd⟩

/-- Witness for C5: the empty column state and a concrete staged claim. -/
theorem claim_txo_mutual_inverse_preserved_witness :
    mutualInverse ⟨fun _ => none, fun _ => none⟩ ∧
    mutualInverse (applyAddClaimUtxoOps ⟨fun _ => none, fun _ => none⟩
      ⟨"a", "a", 5, 10, 500, 2, 0, 2, 0, false, none, none⟩) :=
  have hinv : mutualInverse ⟨fun _ => none, fun _ => none⟩ :=
    ⟨fun _ v h => Option.noConfusion h, fun _ _ _ _ h => Option.noConfusion h⟩
  ⟨hinv,
   (claim_txo_mutual_inverse_preserved ⟨fun _ => none, fun _ => none⟩
      ⟨"a", "a", 5, 10, 500, 2, 0, 2, 0, false, none, none⟩ hinv).1 rfl rfl⟩

/-! ## Delayed activation (`get_delayed_activate_ops` inside
`BlockProcessor._get_takeover_ops`)

    controlling = get_controlling(name)
    nothing_is_controlling = not controlling
    staged_is_controlling = False if not controlling else claim_hash == controlling.claim_hash
    controlling_is_abandoned = False if not controlling else \
        name in names_with_abandoned_or_updated_controlling_claims
    if nothing_is_controlling or staged_is_controlling or controlling_is_abandoned:
        delay = 0
    elif is_new_claim:
        delay = self.coin.get_delay_for_name(height - controlling.height)
    else:
        controlling_effective_amount = self._get_pending_effective_amount(name, controlling.claim_hash)
        staged_effective_amount = self._get_pending_effective_amount(name, claim_hash)
        staged_update_could_cause_takeover = staged_effective_amount > controlling_effective_amount
        delay = 0 if not staged_update_could_cause_takeover else \
            self.coin.get_delay_for_name(height - controlling.height)
-/

/-- The `claim_takeover` column value `(claim_hash, height)`. -/
structure ClaimTakeoverValue where
  claimHash : ℕ
  height : ℕ
  deriving DecidableEq, Repr

/-- `ACTIVATED_CLAIM_TXO_TYPE` / `ACTIVATED_SUPPORT_TXO_TYPE`. -/
inductive TxoType
  | claim
  | support
  deriving DecidableEq, Repr

/-- `PendingActivationKey` `(height, txo_type, tx_num, position)`. -/
structure PendingActivationKey where
  height : ℕ
  txoType : TxoType
  txNum : ℕ
  position : ℕ
  deriving DecidableEq, Repr

/-- Environment of one `get_delayed_activate_ops` call: the block height,
the name's current takeover record, membership of the name in
`names_with_abandoned_or_updated_controlling_claims`, the pending
effective amounts for this name, and the (abstract) coin delay function
`get_delay_for_name`. -/
structure ActivationEnv where
  height : ℕ
  controlling : Option ClaimTakeoverValue
  nameInAbandonedOrUpdated : Bool
  pendingEffectiveAmount : ℕ → ℕ
  getDelayForName : ℤ → ℕ

/-- The delay computed by `get_delayed_activate_ops`, following the code's
three guard booleans (`nothing_is_controlling`, `staged_is_controlling`,
`controlling_is_abandoned`). -/
def activationDelay (env : ActivationEnv) (claimHash : ℕ) (isNewClaim : Bool) : ℕ :=
  match env.controlling with
  | none => 0
  | some c =>
    if claimHash = c.claimHash || env.nameInAbandonedOrUpdated then 0
    else if isNewClaim then
      env.getDelayForName ((env.height : ℤ) - (c.height : ℤ))
    else if env.pendingEffectiveAmount claimHash > env.pendingEffectiveAmount c.claimHash
    then env.getDelayForName ((env.height : ℤ) - (c.height : ℤ))
    else 0

/-- Where `get_delayed_activate_ops` records the staged item: delay-0
items go into `activated_at_height` (keyed by the current height), others
into `activate_in_future[name][claim_hash]` at `height + delay`. -/
inductive ActivationScheduling
  | activatedNow (key : PendingActivationKey)
  | scheduledFuture (key : PendingActivationKey) (amount : ℕ)
  deriving DecidableEq, Repr

/-- The scheduling decision plus the activation height passed to
`get_activate_ops` (`height + delay` in both cases). -/
structure DelayedActivateResult where
  sched : ActivationScheduling
  activateOpHeight : ℕ
  deriving DecidableEq, Repr

/-- The tail of `get_delayed_activate_ops`: classify by `delay == 0` and
always stage activation ops at `height + delay`. -/
def getDelayedActivateOps (env : ActivationEnv) (claimHash : ℕ) (isNewClaim : Bool)
    (txNum nout _amount : ℕ) (isSupport : Bool) : DelayedActivateResult :=
  let delay := activationDelay env claimHash isNewClaim
  let ttype := if isSupport then TxoType.support else TxoType.claim
  if delay = 0 then
    ⟨.activatedNow ⟨env.height, ttype, txNum, nout⟩, env.height + delay⟩
  else
    ⟨.scheduledFuture ⟨env.height + delay, ttype, txNum, nout⟩ _amount,
     env.height + delay⟩

/-- The delay as the specification states it, case by case. -/
def specActivationDelay (env : ActivationEnv) (claimHash : ℕ)
    (isNewClaim : Bool) : ℕ :=
  if env.controlling = none then 0
  else if (env.controlling.map (fun c => c.claimHash)) = some claimHash then 0
  else if env.nameInAbandonedOrUpdated then 0
  else
    let c := (env.controlling.map (fun c => c.height)).getD 0
    let takeover := env.getDelayForName ((env.height : ℤ) - (c : ℤ))
    if isNewClaim then takeover
    else if env.pendingEffectiveAmount claimHash >
        env.pendingEffectiveAmount (((env.controlling.map (fun c => c.claimHash))).getD 0)
    then takeover
    else 0

/-- **C3.** The activation delay computed by `get_delayed_activate_ops` is
0 when there is no controlling claim, the staged hash is the controlling
hash, or the name's controlling claim was abandoned or updated this
block; otherwise a new claim (or support to a new claim) gets
`get_delay_for_name(height − controlling.height)`, and an update to a
non-controlling claim gets 0 unless its pending effective amount strictly
exceeds the controlling claim's, in which case it gets the same takeover
delay.  Delay-0 items are recorded for activation at the current height,
delayed items are scheduled at `height + delay`. -/
theorem delayed_activation_correct (env : ActivationEnv) (claimHash : ℕ)
    (isNewClaim : Bool) (txNum nout amount : ℕ) (isSupport : Bool) :
    activationDelay env claimHash isNewClaim =
      specActivationDelay env claimHash isNewClaim ∧
    (activationDelay env claimHash isNewClaim = 0 →
      getDelayedActivateOps env claimHash isNewClaim txNum nout amount isSupport =
        ⟨.activatedNow ⟨env.height,
           if isSupport then .support else .claim, txNum, nout⟩, env.height⟩) ∧
    (∀ d, activationDelay env claimHash isNewClaim = d → d ≠ 0 →
      getDelayedActivateOps env claimHash isNewClaim txNum nout amount isSupport =
        ⟨.scheduledFuture ⟨env.height + d,
           if isSupport then .support else .claim, txNum, nout⟩ amount,
         env.height + d⟩) := by
  refine ⟨?_, ?_, ?_⟩
  · cases hc : env.controlling with
    | none => simp [activationDelay, specActivationDelay, hc]
    | some c =>
      by_cases hch : claimHash = c.claimHash
      · simp [activationDelay, specActivationDelay, hc, hch]
      · have hne : ¬ (c.claimHash = claimHash) := fun h => hch h.symm
        by_cases hab : env.nameInAbandonedOrUpdated
        · simp [activationDelay, specActivationDelay, hc, hch, hab, hne]
        · simp [activationDelay, specActivationDelay, hc, hch, hab, hne]
  · intro h0
    simp [getDelayedActivateOps, h0]
  · intro d hd hne
    rw [getDelayedActivateOps, hd]
    simp [hne]

/-- Witness for C3 at a concrete environment: a controlling claim of
height 10 and a challenger staged at height 20. -/
theorem delayed_activation_correct_witness :
    activationDelay ⟨20, some ⟨1, 10⟩, false, (fun _ => 100), (fun d => d.toNat)⟩ 2 true =
      specActivationDelay ⟨20, some ⟨1, 10⟩, false, (fun _ => 100), (fun d => d.toNat)⟩ 2 true ∧
    (activationDelay ⟨20, some ⟨1, 10⟩, false, (fun _ => 100), (fun d => d.toNat)⟩ 2 true = 0 →
      getDelayedActivateOps ⟨20, some ⟨1, 10⟩, false, (fun _ => 100), (fun d => d.toNat)⟩
          2 true 7 0 100 false =
        ⟨.activatedNow ⟨20, .claim, 7, 0⟩, 20⟩) ∧
    (∀ d, activationDelay ⟨20, some ⟨1, 10⟩, false, (fun _ => 100), (fun d => d.toNat)⟩ 2 true = d →
      d ≠ 0 →
      getDelayedActivateOps ⟨20, some ⟨1, 10⟩, false, (fun _ => 100), (fun d => d.toNat)⟩
          2 true 7 0 100 false =
        ⟨.scheduledFuture ⟨20 + d, .claim, 7, 0⟩ 100, 20 + d⟩) := by
  have h := delayed_activation_correct
    ⟨20, some ⟨1, 10⟩, false, (fun _ => 100), (fun d => d.toNat)⟩ 2 true 7 0 100 false
  simpa using h

/-! ## Takeover resolution (`BlockProcessor._get_takeover_ops`, the
"process takeovers" loop)

One iteration of `for name, activated in self.activation_by_claim_by_name.items()`
for a fixed name.  Python's `max(d, key=lambda x: d[x])` returns the
first key (in dict insertion order) attaining the maximum, which
`maxByKey` reproduces.  `amounts` maps the non-abandoned activated
claims (in insertion order) and then the non-abandoned controlling claim
to `_get_pending_effective_amount(name, ·)`;
`amounts_with_future_activations` overlays the future-activation keys
with their effective amounts evaluated at
`height + 1 + maxTakeoverDelay`. -/

/-- Environment of one name's takeover processing: the caches and DB
reads used by lines 1172-1298 of `block_processor.py`. -/
structure TakeoverEnv where
  height : ℕ
  txCount : ℕ
  controlling : Option ClaimTakeoverValue
  activatedKeys : List ℕ
  abandoned : ℕ → Bool
  nameInAbandonedOrUpdated : Bool
  eff : ℕ → ℕ
  futureKeys : List ℕ
  effFuture : ℕ → ℕ
  claimHashToTxo : ℕ → Option (ℕ × ℕ)
  txoToClaim : ℕ × ℕ → Option StagedClaimtrieItem
  dbClaimTxo : ℕ → Option ClaimTxoValue
  dbClaimTxoAmount : ℕ → Option ℕ
  dbActivation : ℕ → ℕ → ℤ
  activateInFuture : ℕ → List (PendingActivationKey × ℕ)
  activatedAtHeight : ℕ → Option (List PendingActivationKey)
  possibleFutureSupportTxos : ℕ → List (ℕ × ℕ)
  needReactivate : ℕ → Option PendingActivationKey

/-- Key order of the `amounts` dict: the non-abandoned activated claims,
then the controlling claim if present, not abandoned and not already a
key. -/
def amountsKeys (env : TakeoverEnv) : List ℕ :=
  let base := env.activatedKeys.filter (fun ch => !env.abandoned ch)
  match env.controlling with
  | none => base
  | some c =>
    if env.abandoned c.claimHash then base
    else if c.claimHash ∈ base then base
    else base ++ [c.claimHash]

/-- Python's `max(keys, key=f)`: the first key attaining the maximum of
`f`, `none` on an empty sequence (a raised `ValueError`). -/
def maxByKey (f : ℕ → ℕ) : List ℕ → Option ℕ
  | [] => none
  | x :: xs => some (xs.foldl (fun best y => if f y > f best then y else best) x)

/-- `winning_claim_hash = max(amounts, key=lambda x: amounts[x])`. -/
def winningClaimHash (env : TakeoverEnv) : Option ℕ :=
  maxByKey env.eff (amountsKeys env)

/-- The outer takeover condition of line 1185 (re-tested verbatim by the
`elif` of line 1259): `not controlling or (w != c and name in
names_with_abandoned_or_updated_controlling_claims) or ((w != c) and
(amounts[w] > amounts[c]))`. -/
def takeoverCondition (env : TakeoverEnv) (winning : ℕ) : Bool :=
  match env.controlling with
  | none => true
  | some c =>
    (decide (winning ≠ c.claimHash) && env.nameInAbandonedOrUpdated) ||
    (decide (winning ≠ c.claimHash) &&
      decide (env.eff winning > env.eff c.claimHash))

/-- Values of `amounts_with_future_activations`: future-activation keys
read `_get_pending_effective_amount(name, ch, height + 1 + maxTakeoverDelay)`,
the rest keep their `amounts` value. -/
def amountsWithFutureVal (env : TakeoverEnv) (ch : ℕ) : ℕ :=
  if ch ∈ env.futureKeys then env.effFuture ch else env.eff ch

/-- Key order of `amounts_with_future_activations`: the `amounts` keys,
then the new future-activation keys in their insertion order. -/
def amountsWithFutureKeys (env : TakeoverEnv) : List ℕ :=
  amountsKeys env ++ env.futureKeys.filter (fun ch => !decide (ch ∈ amountsKeys env))

/-- `winning_including_future_activations`. -/
def futureWinningClaimHash (env : TakeoverEnv) : Option ℕ :=
  maxByKey (amountsWithFutureVal env) (amountsWithFutureKeys env)

/-- The early-takeover test of line 1201:
`winning_claim_hash != winning_including_future_activations and
future_winning_amount > amounts[winning_claim_hash]`. -/
def earlyTakeoverCondition (env : TakeoverEnv) (winning wf : ℕ) : Bool :=
  decide (winning ≠ wf) && decide (amountsWithFutureVal env wf > env.eff winning)

/-- Staged operations emitted by the takeover loop (activation columns
via `get_activate_ops`/`get_remove_activate_ops`, takeover column
directly).  `name` is fixed and omitted.  Amounts are `Option` because
`db.get_claim_txo_amount` can return `None`, which the non-early
reactivation path passes through unchecked. -/
inductive TkOp
  | removeActivate (ttype : TxoType) (claimHash txNum position : ℕ)
      (activationHeight : ℤ) (amount : Option ℕ)
  | activate (ttype : TxoType) (claimHash txNum position : ℕ)
      (activationHeight : ℤ) (amount : Option ℕ)
  | takeoverDelete (claimHash height : ℕ)
  | takeoverPut (claimHash height : ℕ)
  deriving DecidableEq, Repr

/-- The scan of `activate_in_future[name][wf]` for the txo's scheduled
height (line 1216). -/
def findScheduledHeight (l : List (PendingActivationKey × ℕ)) (txNum position : ℕ) :
    Option ℕ :=
  match l.find? (fun ka => (ka.1.txNum == txNum) && (ka.1.position == position)) with
  | some ka => some ka.1.height
  | none => none

/-- The fallback scan of `activated_at_height[PendingActivationValue(wf, name)]`
(lines 1222-1227). -/
def findPendingHeight (l : List PendingActivationKey) (txNum position : ℕ) :
    Option ℕ :=
  match l.find? (fun k => (k.txNum == txNum) && (k.position == position)) with
  | some k => some k.height
  | none => none

/-- Resolution of `(tx_num, position, amount, activation)` for the claim
activating early (lines 1206-1228); `none` models the crash paths
(`AttributeError` on a missing DB row, `KeyError`, and the
`assert None not in (amount, activation)`). -/
def earlyClaimInfo (env : TakeoverEnv) (wf : ℕ) : Option (ℕ × ℕ × ℕ × ℤ) :=
  match env.claimHashToTxo wf with
  | none =>
    match env.dbClaimTxo wf with
    | none => none
    | some claim =>
      some (claim.txNum, claim.position, claim.amount,
            env.dbActivation claim.txNum claim.position)
  | some (txNum, position) =>
    match env.txoToClaim (txNum, position) with
    | none => none
    | some staged =>
      let act : Option ℕ :=
        match findScheduledHeight (env.activateInFuture wf) txNum position with
        | some h => some h
        | none =>
          match env.activatedAtHeight wf with
          | none => none
          | some l => findPendingHeight l txNum position
      match act with
      | none => none
      | some a => some (txNum, position, staged.amount, (a : ℤ))

/-- Re-staging of the early claim's scheduled support activations at the
current height (lines 1239-1249). -/
def earlySupportReOps (env : TakeoverEnv) (wf : ℕ) : List TkOp :=
  (env.activateInFuture wf).flatMap fun ka =>
    if (ka.1.txNum, ka.1.position) ∈ env.possibleFutureSupportTxos wf then
      [.removeActivate .support wf ka.1.txNum ka.1.position (ka.1.height : ℤ) (some ka.2),
       .activate .support wf ka.1.txNum ka.1.position (env.height : ℤ) (some ka.2)]
    else []

/-- Rewriting the takeover record: `stage_delete` of the old record when
a controlling claim exists, then `stage_put((name,), (winner, height))`. -/
def takeoverRecordOps (env : TakeoverEnv) (newWinner : ℕ) : List TkOp :=
  (match env.controlling with
   | none => []
   | some c => [.takeoverDelete c.claimHash c.height]) ++
  [.takeoverPut newWinner env.height]

/-- The non-early reactivation of a candidate from
`need_reactivate_if_takes_over` (lines 1263-1283); `none` is the
`KeyError` crash on a missing in-block txo. -/
def normalReactivateOps (env : TakeoverEnv) (winning : ℕ) : Option (List TkOp) :=
  match env.needReactivate winning with
  | none => some []
  | some prev =>
    let amount0 := env.dbClaimTxoAmount winning
    match env.claimHashToTxo winning with
    | some (txNum, position) =>
      match env.txoToClaim (txNum, position) with
      | none => none
      | some staged =>
        some (if prev.height > env.height then
                (if txNum < env.txCount then
                  [.removeActivate .claim winning txNum position
                    (prev.height : ℤ) (some staged.amount)]
                 else []) ++
                [.activate .claim winning txNum position
                  (env.height : ℤ) (some staged.amount)]
              else [])
    | none =>
      some (if prev.height > env.height then
              (if prev.txNum < env.txCount then
                [.removeActivate .claim winning prev.txNum prev.position
                  (prev.height : ℤ) amount0]
               else []) ++
              [.activate .claim winning prev.txNum prev.position
                (env.height : ℤ) amount0]
            else [])

/-- One name's iteration of the takeover-processing loop: the staged ops
it emits, `none` on any of the crash paths (including `max()` over an
empty `amounts` dict). -/
def takeoverOps (env : TakeoverEnv) : Option (List TkOp) :=
  match winningClaimHash env with
  | none => none
  | some winning =>
    if takeoverCondition env winning then
      match futureWinningClaimHash env with
      | none => none
      | some wf =>
        if earlyTakeoverCondition env winning wf then
          match earlyClaimInfo env wf with
          | none => none
          | some (txNum, position, amount, activation) =>
            some ([.removeActivate .claim wf txNum position activation (some amount),
                   .activate .claim wf txNum position (env.height : ℤ) (some amount)] ++
                  earlySupportReOps env wf ++
                  takeoverRecordOps env wf)
        else
          match normalReactivateOps env winning with
          | none => none
          | some reOps => some (reOps ++ takeoverRecordOps env winning)
    else
      some []

/-- The support re-staging list contains no takeover-record writes. -/
theorem takeoverPut_not_mem_earlySupportReOps (env : TakeoverEnv) (wf ch h : ℕ) :
    TkOp.takeoverPut ch h ∉ earlySupportReOps env wf := by
  intro hmem
  rw [earlySupportReOps, List.mem_flatMap] at hmem
  obtain ⟨ka, _, hop⟩ := hmem
  by_cases hc : (ka.1.txNum, ka.1.position) ∈ env.possibleFutureSupportTxos wf
  · rw [if_pos hc] at hop
    simp at hop
  · rw [if_neg hc] at hop
    simp at hop

/-- Membership of a takeover-record write in `takeoverRecordOps`. -/
theorem takeoverPut_mem_takeoverRecordOps (env : TakeoverEnv) (w ch h : ℕ) :
    TkOp.takeoverPut ch h ∈ takeoverRecordOps env w ↔ ch = w ∧ h = env.height := by
  rcases hc : env.controlling with _ | c <;>
    simp [takeoverRecordOps, hc]

/-- The old record's delete is always part of `takeoverRecordOps` when a
controlling claim exists. -/
theorem takeoverDelete_mem_takeoverRecordOps (env : TakeoverEnv) (w : ℕ)
    (c : ClaimTakeoverValue) (hc : env.controlling = some c) :
    TkOp.takeoverDelete c.claimHash c.height ∈ takeoverRecordOps env w := by
  simp [takeoverRecordOps, hc]

/-- The non-early reactivation path stages no takeover-record writes. -/
theorem takeoverPut_not_mem_normalReactivateOps (env : TakeoverEnv)
    (winning ch h : ℕ) (reOps : List TkOp)
    (hre : normalReactivateOps env winning = some reOps) :
    TkOp.takeoverPut ch h ∉ reOps := by
  intro hmem
  unfold normalReactivateOps at hre
  split at hre
  · injection hre with h'
    subst h'
    simp at hmem
  · split at hre
    · split at hre
      · exact Option.noConfusion hre
      · injection hre with h'
        subst h'
        split at hmem
        · rcases List.mem_append.1 hmem with h1 | h1
          · split at h1 <;> simp at h1
          · simp at h1
        · simp at hmem
    · injection hre with h'
      subst h'
      split at hmem
      · rcases List.mem_append.1 hmem with h1 | h1
        · split at h1 <;> simp at h1
        · simp at h1
      · simp at hmem

/-- **C2, amended.** For a name processed in the takeover loop with
current winner `w`: the takeover record is deleted and rewritten to
`(w, height)` if and only if the outer takeover condition holds (no
controlling claim, or `w` differs from the controlling claim and either
the name's controlling claim was abandoned or updated this block, or
`w`'s effective amount strictly exceeds the controlling claim's) *and*
the early-takeover probe does not fire (the winner including scheduled
future activations is `w` itself, or its amount does not exceed `w`'s);
when the probe fires, the record is rewritten to the future winner
instead; when the outer condition fails, the record is left unchanged;
whenever the outer condition holds and a controlling claim exists, its
old record is deleted. -/
theorem takeover_record_rewrite_iff (env : TakeoverEnv) (winning : ℕ)
    (ops : List TkOp) (hwin : winningClaimHash env = some winning)
    (hops : takeoverOps env = some ops) :
    ((TkOp.takeoverPut winning env.height ∈ ops) ↔
      (takeoverCondition env winning = true ∧
       ∀ wf, futureWinningClaimHash env = some wf →
         earlyTakeoverCondition env winning wf = false)) ∧
    (takeoverCondition env winning = false → ops = []) ∧
    (takeoverCondition env winning = true →
      ∀ c, env.controlling = some c →
        TkOp.takeoverDelete c.claimHash c.height ∈ ops) := by
  unfold takeoverOps at hops
  simp only [hwin] at hops
  by_cases hcond : takeoverCondition env winning = true
  · rw [if_pos hcond] at hops
    rcases hwf : futureWinningClaimHash env with _ | wf <;>
      simp only [hwf] at hops
    · exact absurd hops (by simp)
    · by_cases hearly : earlyTakeoverCondition env winning wf = true
      · rw [if_pos hearly] at hops
        rcases hinfo : earlyClaimInfo env wf with _ | ⟨txNum, position, amount, activation⟩ <;>
          simp only [hinfo] at hops
        · exact absurd hops (by simp)
        · injection hops with hops'
          subst hops'
          have hne : winning ≠ wf := by
            simp only [earlyTakeoverCondition, Bool.and_eq_true,
              decide_eq_true_eq] at hearly
            exact hearly.1
          refine ⟨?_, ?_, ?_⟩
          · constructor
            · intro hmem
              exfalso
              rcases List.mem_append.1 hmem with hL | hR
              · rcases List.mem_cons.1 hL with h1 | hL2
                · exact TkOp.noConfusion h1
                · rcases List.mem_cons.1 hL2 with h1 | h0
                  · exact TkOp.noConfusion h1
                  · exact takeoverPut_not_mem_earlySupportReOps env wf winning
                      env.height (by simpa using h0)
              · exact hne
                  ((takeoverPut_mem_takeoverRecordOps env wf winning
                    env.height).1 hR).1
            · rintro ⟨-, hall⟩
              have hthis := hall wf rfl
              rw [hearly] at hthis
              exact absurd hthis (by decide)
          · intro hfalse
            rw [hcond] at hfalse
            exact absurd hfalse (by decide)
          · intro _ c hc
            exact List.mem_append_right _
              (takeoverDelete_mem_takeoverRecordOps env wf c hc)
      · rw [if_neg hearly] at hops
        rcases hre : normalReactivateOps env winning with _ | reOps <;>
          simp only [hre] at hops
        · exact absurd hops (by simp)
        · injection hops with hops'
          subst hops'
          have hfall : ∀ w2, (some wf : Option ℕ) = some w2 →
              earlyTakeoverCondition env winning w2 = false := by
            intro w2 hw2
            injection hw2 with heq
            subst heq
            cases hcase : earlyTakeoverCondition env winning wf
            · rfl
            · exact absurd hcase hearly
          refine ⟨?_, ?_, ?_⟩
          · constructor
            · intro _
              exact ⟨hcond, hfall⟩
            · intro _
              exact List.mem_append_right _
                ((takeoverPut_mem_takeoverRecordOps env winning winning
                  env.height).2 ⟨rfl, rfl⟩)
          · intro hfalse
            rw [hcond] at hfalse
            exact absurd hfalse (by decide)
          · intro _ c hc
            exact List.mem_append_right _
              (takeoverDelete_mem_takeoverRecordOps env winning c hc)
  · rw [if_neg hcond] at hops
    injection hops with hops'
    subst hops'
    have hfalse : takeoverCondition env winning = false := by
      cases hcase : takeoverCondition env winning
      · rfl
      · exact absurd hcase hcond
    refine ⟨?_, fun _ => rfl, ?_⟩
    · simp [hfalse]
    · intro htrue
      exact absurd htrue hcond

/-- A concrete takeover environment: controlling claim 1 (height 10,
effective amount 100), activating challenger claim 2 (150), and claim 3
scheduled to activate in the future with effective amount 300 as of its
scheduled height; claim 3's txo is in the DB at (30, 0) with activation
height 25. -/
def takeoverCexEnv : TakeoverEnv where
  height := 20
  txCount := 100
  controlling := some ⟨1, 10⟩
  activatedKeys := [2]
  abandoned := fun _ => false
  nameInAbandonedOrUpdated := false
  eff := fun ch => if ch = 1 then 100 else if ch = 2 then 150 else 0
  futureKeys := [3]
  effFuture := fun ch => if ch = 3 then 300 else 0
  claimHashToTxo := fun _ => none
  txoToClaim := fun _ => none
  dbClaimTxo := fun ch => if ch = 3 then some ⟨30, 0, 30, 0, 300, false, "x"⟩ else none
  dbClaimTxoAmount := fun ch => if ch = 3 then some 300 else none
  dbActivation := fun t p => if t = 30 ∧ p = 0 then 25 else -1
  activateInFuture := fun _ => []
  activatedAtHeight := fun _ => none
  possibleFutureSupportTxos := fun _ => []
  needReactivate := fun _ => none

/-- **C2, counterexample.** The claim's "if and only if" fails: here the
winner over the activated candidates is claim 2 and the stated condition
holds (2 differs from the controlling claim 1 and 150 > 100), yet the
takeover record is *not* rewritten to `(2, 20)` — the early-takeover
probe redirects it to the future winner claim 3. -/
theorem takeover_rewrite_claim_cex :
    winningClaimHash takeoverCexEnv = some 2 ∧
    takeoverCondition takeoverCexEnv 2 = true ∧
    takeoverOps takeoverCexEnv = some
      [.removeActivate .claim 3 30 0 25 (some 300),
       .activate .claim 3 30 0 20 (some 300),
       .takeoverDelete 1 10, .takeoverPut 3 20] ∧
    TkOp.takeoverPut 2 20 ∉
      [TkOp.removeActivate .claim 3 30 0 25 (some 300),
       TkOp.activate .claim 3 30 0 20 (some 300),
       TkOp.takeoverDelete 1 10, TkOp.takeoverPut 3 20] := by
  refine ⟨by decide, by decide, by decide, by decide⟩

/-- A concrete takeover environment with no future activations: the
challenger claim 2 (150) beats the controlling claim 1 (100) outright. -/
def takeoverWitnessEnv : TakeoverEnv where
  height := 20
  txCount := 100
  controlling := some ⟨1, 10⟩
  activatedKeys := [2]
  abandoned := fun _ => false
  nameInAbandonedOrUpdated := false
  eff := fun ch => if ch = 1 then 100 else if ch = 2 then 150 else 0
  futureKeys := []
  effFuture := fun _ => 0
  claimHashToTxo := fun _ => none
  txoToClaim := fun _ => none
  dbClaimTxo := fun _ => none
  dbClaimTxoAmount := fun _ => none
  dbActivation := fun _ _ => -1
  activateInFuture := fun _ => []
  activatedAtHeight := fun _ => none
  possibleFutureSupportTxos := fun _ => []
  needReactivate := fun _ => none

/-- Witness for the amended C2 at `takeoverWitnessEnv`: claim 2 takes
over and the record is rewritten to `(2, 20)` after deleting `(1, 10)`. -/
theorem takeover_record_rewrite_iff_witness :
    winningClaimHash takeoverWitnessEnv = some 2 ∧
    takeoverOps takeoverWitnessEnv =
      some [.takeoverDelete 1 10, .takeoverPut 2 20] ∧
    (((TkOp.takeoverPut 2 20 ∈ [TkOp.takeoverDelete 1 10, TkOp.takeoverPut 2 20]) ↔
       (takeoverCondition takeoverWitnessEnv 2 = true ∧
        ∀ wf, futureWinningClaimHash takeoverWitnessEnv = some wf →
          earlyTakeoverCondition takeoverWitnessEnv 2 wf = false)) ∧
     (takeoverCondition takeoverWitnessEnv 2 = false →
       [TkOp.takeoverDelete 1 10, TkOp.takeoverPut 2 20] = []) ∧
     (takeoverCondition takeoverWitnessEnv 2 = true →
       ∀ c, takeoverWitnessEnv.controlling = some c →
         TkOp.takeoverDelete c.claimHash c.height ∈
           [TkOp.takeoverDelete 1 10, TkOp.takeoverPut 2 20])) :=
  ⟨by decide, by decide,
   takeover_record_rewrite_iff takeoverWitnessEnv 2
     [.takeoverDelete 1 10, .takeoverPut 2 20] (by decide) (by decide)⟩

/-- A concrete takeover environment where the controlling claim 1
(effective amount 200) is still winning over the activating claim 2 (50),
while claim 3 is scheduled to activate in the future with amount 300. -/
def earlyProbeCexEnv : TakeoverEnv where
  height := 20
  txCount := 100
  controlling := some ⟨1, 10⟩
  activatedKeys := [2]
  abandoned := fun _ => false
  nameInAbandonedOrUpdated := false
  eff := fun ch => if ch = 1 then 200 else if ch = 2 then 50 else 0
  futureKeys := [3]
  effFuture := fun ch => if ch = 3 then 300 else 0
  claimHashToTxo := fun _ => none
  txoToClaim := fun _ => none
  dbClaimTxo := fun ch => if ch = 3 then some ⟨30, 0, 30, 0, 300, false, "x"⟩ else none
  dbClaimTxoAmount := fun ch => if ch = 3 then some 300 else none
  dbActivation := fun t p => if t = 30 ∧ p = 0 then 25 else -1
  activateInFuture := fun _ => []
  activatedAtHeight := fun _ => none
  possibleFutureSupportTxos := fun _ => []
  needReactivate := fun _ => none

/-- **C4, counterexample.** The claim omits the outer takeover condition:
here the winner including future activations (claim 3, amount 300)
differs from the current winner (the controlling claim 1, amount 200)
and strictly exceeds it, yet nothing is re-staged and the takeover record
is not rewritten — the probe only runs when the currently-activating set
already triggers a takeover, and here the controlling claim is still
winning. -/
theorem early_takeover_probe_cex :
    winningClaimHash earlyProbeCexEnv = some 1 ∧
    futureWinningClaimHash earlyProbeCexEnv = some 3 ∧
    earlyTakeoverCondition earlyProbeCexEnv 1 3 = true ∧
    takeoverOps earlyProbeCexEnv = some [] := by
  refine ⟨by decide, by decide, by decide, by decide⟩

/-- **C4, amended.** When a name's takeover processing runs with the
outer takeover condition holding, and the winner computed including
pending future activations (`wf`) differs from the current winner and its
amount strictly exceeds the current winner's, then the future claim's
scheduled activation entry (resolved to `(txNum, position, amount,
activation)`) is deleted and re-staged with activation height `height`,
each of its scheduled support activations is likewise re-staged at
`height`, and `claim_takeover(name)` is rewritten to `(wf, height)`. -/
theorem early_takeover_probe_correct (env : TakeoverEnv)
    (winning wf txNum position amount : ℕ) (activation : ℤ) (ops : List TkOp)
    (hwin : winningClaimHash env = some winning)
    (hcond : takeoverCondition env winning = true)
    (hwf : futureWinningClaimHash env = some wf)
    (hearly : earlyTakeoverCondition env winning wf = true)
    (hinfo : earlyClaimInfo env wf = some (txNum, position, amount, activation))
    (hops : takeoverOps env = some ops) :
    TkOp.removeActivate .claim wf txNum position activation (some amount) ∈ ops ∧
    TkOp.activate .claim wf txNum position (env.height : ℤ) (some amount) ∈ ops ∧
    TkOp.takeoverPut wf env.height ∈ ops ∧
    (∀ ka ∈ env.activateInFuture wf,
      (ka.1.txNum, ka.1.position) ∈ env.possibleFutureSupportTxos wf →
      TkOp.removeActivate .support wf ka.1.txNum ka.1.position (ka.1.height : ℤ)
        (some ka.2) ∈ ops ∧
      TkOp.activate .support wf ka.1.txNum ka.1.position (env.height : ℤ)
        (some ka.2) ∈ ops) := by
  unfold takeoverOps at hops
  simp only [hwin, hwf, hinfo] at hops
  rw [if_pos hcond, if_pos hearly] at hops
  injection hops with hops'
  subst hops'
  have hsup : ∀ ka ∈ env.activateInFuture wf,
      (ka.1.txNum, ka.1.position) ∈ env.possibleFutureSupportTxos wf →
      TkOp.removeActivate .support wf ka.1.txNum ka.1.position (ka.1.height : ℤ)
        (some ka.2) ∈ earlySupportReOps env wf ∧
      TkOp.activate .support wf ka.1.txNum ka.1.position (env.height : ℤ)
        (some ka.2) ∈ earlySupportReOps env wf := by
    intro ka hka hps
    constructor
    · rw [earlySupportReOps, List.mem_flatMap]
      exact ⟨ka, hka, by rw [if_pos hps]; simp⟩
    · rw [earlySupportReOps, List.mem_flatMap]
      exact ⟨ka, hka, by rw [if_pos hps]; simp⟩
  refine ⟨?_, ?_, ?_, ?_⟩
  · exact List.mem_append_left _ (by simp)
  · exact List.mem_append_left _ (by simp)
  · exact List.mem_append_right _
      ((takeoverPut_mem_takeoverRecordOps env wf wf env.height).2 ⟨rfl, rfl⟩)
  · intro ka hka hps
    obtain ⟨h1, h2⟩ := hsup ka hka hps
    exact ⟨List.mem_append_left _ (List.mem_append_right _ h1),
           List.mem_append_left _ (List.mem_append_right _ h2)⟩

/-- A concrete environment where the early-takeover probe fires and the
future winner (claim 3) has a scheduled support activation to re-stage. -/
def earlyProbeWitnessEnv : TakeoverEnv where
  height := 20
  txCount := 100
  controlling := some ⟨1, 10⟩
  activatedKeys := [2]
  abandoned := fun _ => false
  nameInAbandonedOrUpdated := false
  eff := fun ch => if ch = 1 then 100 else if ch = 2 then 150 else 0
  futureKeys := [3]
  effFuture := fun ch => if ch = 3 then 300 else 0
  claimHashToTxo := fun _ => none
  txoToClaim := fun _ => none
  dbClaimTxo := fun ch => if ch = 3 then some ⟨30, 0, 30, 0, 300, false, "x"⟩ else none
  dbClaimTxoAmount := fun ch => if ch = 3 then some 300 else none
  dbActivation := fun t p => if t = 30 ∧ p = 0 then 25 else -1
  activateInFuture := fun ch => if ch = 3 then [(⟨26, .support, 40, 1⟩, 77)] else []
  activatedAtHeight := fun _ => none
  possibleFutureSupportTxos := fun ch => if ch = 3 then [(40, 1)] else []
  needReactivate := fun _ => none

/-- Witness for the amended C4 at `earlyProbeWitnessEnv`: claim 3's
activation is moved from height 25 to 20, its scheduled support at
(40, 1) is moved from height 26 to 20, and the takeover record is
rewritten to `(3, 20)`. -/
theorem early_takeover_probe_correct_witness :
    winningClaimHash earlyProbeWitnessEnv = some 2 ∧
    takeoverCondition earlyProbeWitnessEnv 2 = true ∧
    futureWinningClaimHash earlyProbeWitnessEnv = some 3 ∧
    earlyTakeoverCondition earlyProbeWitnessEnv 2 3 = true ∧
    earlyClaimInfo earlyProbeWitnessEnv 3 = some (30, 0, 300, 25) ∧
    (TkOp.removeActivate .claim 3 30 0 25 (some 300) ∈
       (takeoverOps earlyProbeWitnessEnv).getD [] ∧
     TkOp.activate .claim 3 30 0 (20 : ℤ) (some 300) ∈
       (takeoverOps earlyProbeWitnessEnv).getD [] ∧
     TkOp.takeoverPut 3 20 ∈ (takeoverOps earlyProbeWitnessEnv).getD []) :=
  ⟨by decide, by decide, by decide, by decide, by decide,
   have h := early_takeover_probe_correct earlyProbeWitnessEnv 2 3 30 0 300 25
     ((takeoverOps earlyProbeWitnessEnv).getD [])
     (by decide) (by decide) (by decide) (by decide) (by decide) (by decide)
   ⟨h.1, h.2.1, h.2.2.1⟩⟩

/-! ## MemPool notifications (`MemPool._maybe_notify`, `on_mempool`,
`on_block`)

    async def _maybe_notify(self, new_touched):
        tmp, tbp = self._touched_mp, self._touched_bp
        common = set(tmp).intersection(tbp)
        if common:
            height = max(common)
        elif tmp and max(tmp) == self._highest_block:
            height = self._highest_block
        else:
            return
        touched = tmp.pop(height)
        for old in [h for h in tmp if h <= height]:
            del tmp[old]
        for old in [h for h in tbp if h <= height]:
            touched.update(tbp.pop(old))
        await self.notify_sessions(height, touched, new_touched)

`_touched_mp`/`_touched_bp` are dicts height → touched set;
`_highest_block` starts at -1 (hence `ℤ` heights).  Touched sets are
lists of hashXs. -/

/-- An `on_block` or `on_mempool` call. -/
inductive MpEvent
  | onBlock (touched : List ℕ) (height : ℤ)
  | onMempool (touched newTouched : List ℕ) (height : ℤ)
  deriving DecidableEq, Repr

/-- The height argument of an event. -/
def MpEvent.heightOf : MpEvent → ℤ
  | .onBlock _ h => h
  | .onMempool _ _ h => h

/-- The notification state: `_touched_mp`, `_touched_bp` (insertion
ordered dicts), `_highest_block`. -/
structure NotifyState where
  touchedMp : List (ℤ × List ℕ)
  touchedBp : List (ℤ × List ℕ)
  highestBlock : ℤ
  deriving Repr

/-- The key list of a dict. -/
def keysOf (l : List (ℤ × List ℕ)) : List ℤ := l.map Prod.fst

/-- `d[k] = v`: overwrite in place or append a new key. -/
def setKey (l : List (ℤ × List ℕ)) (k : ℤ) (v : List ℕ) : List (ℤ × List ℕ) :=
  if k ∈ keysOf l then l.map (fun p => if p.1 = k then (k, v) else p)
  else l ++ [(k, v)]

/-- `d[k]` (with `[]` for a missing key; only reached on present keys). -/
def lookupA (l : List (ℤ × List ℕ)) (k : ℤ) : List ℕ :=
  match l.find? (fun p => p.1 == k) with
  | some p => p.2
  | none => []

/-- Python's `max` over a set of ints; `none` on the empty set. -/
def maxOfList : List ℤ → Option ℤ
  | [] => none
  | x :: xs => some (xs.foldl max x)

/-- The height selection of `_maybe_notify`: the maximum common key if
the key sets intersect, else the highest block if it is the maximum
`_touched_mp` key, else nothing. -/
def maybeNotifyHeight (s : NotifyState) : Option ℤ :=
  match maxOfList ((keysOf s.touchedMp).filter
      (fun k => decide (k ∈ keysOf s.touchedBp))) with
  | some m => some m
  | none =>
    match maxOfList (keysOf s.touchedMp) with
    | some m => if m = s.highestBlock then some s.highestBlock else none
    | none => none

/-- `_maybe_notify`: emit at most one notification `(height, touched)`,
dropping all entries at or below the notified height. -/
def maybeNotify (s : NotifyState) : NotifyState × Option (ℤ × List ℕ) :=
  match maybeNotifyHeight s with
  | none => (s, none)
  | some h =>
    (⟨s.touchedMp.filter (fun p => !decide (p.1 ≤ h)),
      s.touchedBp.filter (fun p => !decide (p.1 ≤ h)),
      s.highestBlock⟩,
     some (h, lookupA s.touchedMp h ++
       ((s.touchedBp.filter (fun p => decide (p.1 ≤ h))).map Prod.snd).flatten))

/-- `on_block` records the block touched-set and the new highest block,
`on_mempool` records the mempool touched-set; both then run
`_maybe_notify`. -/
def stepEvent (s : NotifyState) : MpEvent → NotifyState × Option (ℤ × List ℕ)
  | .onBlock touched h =>
    maybeNotify ⟨s.touchedMp, setKey s.touchedBp h touched, h⟩
  | .onMempool touched _newTouched h =>
    maybeNotify ⟨setKey s.touchedMp h touched, s.touchedBp, s.highestBlock⟩

/-- Run a sequence of events, collecting the emitted notifications. -/
def runEvents (s : NotifyState) : List MpEvent → NotifyState × List (ℤ × List ℕ)
  | [] => (s, [])
  | e :: es =>
    let r1 := stepEvent s e
    let r2 := runEvents r1.1 es
    (r2.1, (match r1.2 with | some x => [x] | none => []) ++ r2.2)

/-- The state at `MemPool.__init__`: empty dicts, `_highest_block = -1`. -/
def initNotifyState : NotifyState := ⟨[], [], -1⟩

/-- The running maximum stays inside the list it scans. -/
theorem foldl_max_mem (x : ℤ) (xs : List ℤ) : xs.foldl max x ∈ x :: xs := by
  induction xs generalizing x with
  | nil => simp
  | cons y ys ih =>
    rw [List.foldl_cons]
    rcases List.mem_cons.1 (ih (max x y)) with h1 | h2
    · rw [h1]
      rcases max_choice x y with hx | hy
      · rw [hx]
        exact List.mem_cons_self _ _
      · rw [hy]
        exact List.mem_cons_of_mem _ (List.mem_cons_self _ _)
    · exact List.mem_cons_of_mem _ (List.mem_cons_of_mem _ h2)

/-- `max` of a nonempty list is a member. -/
theorem maxOfList_mem (l : List ℤ) (m : ℤ) (h : maxOfList l = some m) : m ∈ l := by
  cases l with
  | nil => exact Option.noConfusion h
  | cons x xs =>
    injection h with h'
    rw [← h']
    exact foldl_max_mem x xs

/-- Keys after a dict write: the old keys plus the written key. -/
theorem keysOf_setKey (l : List (ℤ × List ℕ)) (k : ℤ) (v : List ℕ) :
    ∀ k2 ∈ keysOf (setKey l k v), k2 ∈ keysOf l ∨ k2 = k := by
  intro k2 hk
  unfold setKey at hk
  by_cases hmem : k ∈ keysOf l
  · rw [if_pos hmem] at hk
    unfold keysOf at hk ⊢
    obtain ⟨q, hq, hq1⟩ := List.mem_map.1 hk
    obtain ⟨p, hp, hgp⟩ := List.mem_map.1 hq
    by_cases hpk : p.1 = k
    · right
      rw [if_pos hpk] at hgp
      rw [← hgp] at hq1
      simpa using hq1.symm
    · left
      rw [if_neg hpk] at hgp
      rw [← hgp] at hq1
      exact List.mem_map.2 ⟨p, hp, hq1⟩
  · rw [if_neg hmem] at hk
    unfold keysOf at hk ⊢
    rw [List.map_append] at hk
    rcases List.mem_append.1 hk with h1 | h2
    · left
      exact h1
    · right
      simpa using h2

/-- Keys of a filtered dict are keys of the dict. -/
theorem keysOf_filter_subset (l : List (ℤ × List ℕ)) (p : ℤ × List ℕ → Bool) :
    ∀ k ∈ keysOf (l.filter p), k ∈ keysOf l := by
  intro k hk
  unfold keysOf at hk ⊢
  obtain ⟨q, hq, hq1⟩ := List.mem_map.1 hk
  exact List.mem_map.2 ⟨q, List.mem_of_mem_filter hq, hq1⟩

/-- A notified height is a `_touched_mp` key, and either also a
`_touched_bp` key or the current highest block. -/
theorem maybeNotifyHeight_spec (s : NotifyState) (hn : ℤ)
    (h : maybeNotifyHeight s = some hn) :
    hn ∈ keysOf s.touchedMp ∧ (hn ∈ keysOf s.touchedBp ∨ hn = s.highestBlock) := by
  unfold maybeNotifyHeight at h
  split at h
  · rename_i m heq
    injection h with h'
    subst h'
    have hmem := maxOfList_mem _ _ heq
    rw [List.mem_filter] at hmem
    exact ⟨hmem.1, Or.inl (by simpa using hmem.2)⟩
  · rename_i heq0
    split at h
    · rename_i m heq
      split at h
      · rename_i hm
        injection h with h'
        subst h'
        rw [← hm]
        exact ⟨maxOfList_mem _ _ heq, Or.inr rfl⟩
      · exact Option.noConfusion h
    · exact Option.noConfusion h

/-- `_maybe_notify` shrinks both key sets, keeps the highest block, and
notifies only at a height that is a `_touched_mp` key and is either a
`_touched_bp` key or the highest block. -/
theorem maybeNotify_state_spec (s s1 : NotifyState) (n : Option (ℤ × List ℕ))
    (h : maybeNotify s = (s1, n)) :
    (∀ k ∈ keysOf s1.touchedMp, k ∈ keysOf s.touchedMp) ∧
    (∀ k ∈ keysOf s1.touchedBp, k ∈ keysOf s.touchedBp) ∧
    s1.highestBlock = s.highestBlock ∧
    (∀ hn tn, n = some (hn, tn) →
      hn ∈ keysOf s.touchedMp ∧
      (hn ∈ keysOf s.touchedBp ∨ hn = s.highestBlock)) := by
  unfold maybeNotify at h
  split at h
  · injection h with h1 h2
    subst h1
    subst h2
    exact ⟨fun k hk => hk, fun k hk => hk, rfl,
           fun hn tn hne => Option.noConfusion hne⟩
  · rename_i hh heq
    injection h with h1 h2
    subst h1
    subst h2
    refine ⟨?_, ?_, rfl, ?_⟩
    · intro k hk
      exact keysOf_filter_subset _ _ k hk
    · intro k hk
      exact keysOf_filter_subset _ _ k hk
    · intro hn tn hne
      injection hne with hpair
      have hh1 : hh = hn := congrArg Prod.fst hpair
      subst hh1
      exact maybeNotifyHeight_spec s hh heq

/-- Core induction for C9: starting from a state whose `_touched_mp`
keys are nonnegative and satisfy `P`, whose `_touched_bp` keys satisfy
`Q`, and whose highest block is `-1` or satisfies `Q`, every
notification emitted while running nonnegative-height events happens at
a height `hn` such that a mempool touched-set was recorded at some
height `≤ hn` (by `P` or an `on_mempool` event) and a block touched-set
was recorded at some height `≤ hn` (by `Q` or an `on_block` event). -/
theorem runEvents_notify_recorded (events : List MpEvent) : ∀ (s : NotifyState)
    (P Q : ℤ → Prop),
    (∀ k ∈ keysOf s.touchedMp, 0 ≤ k ∧ P k) →
    (∀ k ∈ keysOf s.touchedBp, Q k) →
    (s.highestBlock = -1 ∨ Q s.highestBlock) →
    (∀ e ∈ events, 0 ≤ e.heightOf) →
    ∀ hn tn, (hn, tn) ∈ (runEvents s events).2 →
      (∃ k, k ≤ hn ∧ (P k ∨ ∃ t n, MpEvent.onMempool t n k ∈ events)) ∧
      (∃ k, k ≤ hn ∧ (Q k ∨ ∃ t, MpEvent.onBlock t k ∈ events)) := by
  induction events with
  | nil =>
    intro s P Q _ _ _ _ hn tn hmem
    simp [runEvents] at hmem
  | cons e es ih =>
    intro s P Q hmp hbp hhb hev hn tn hmem
    have hev0 : 0 ≤ e.heightOf := hev e (List.mem_cons_self e es)
    have heves : ∀ e2 ∈ es, 0 ≤ e2.heightOf :=
      fun e2 he2 => hev e2 (List.mem_cons_of_mem e he2)
    simp only [runEvents] at hmem
    rcases hstep : stepEvent s e with ⟨s1, n1⟩
    rw [hstep] at hmem
    simp only at hmem
    cases e with
    | onBlock t h0 =>
      simp only [stepEvent] at hstep
      obtain ⟨hs1mp, hs1bp, hs1hb, hnotif⟩ :=
        maybeNotify_state_spec _ s1 n1 hstep
      simp only at hs1mp hs1bp hs1hb hnotif
      have hmp1 : ∀ k ∈ keysOf s1.touchedMp, 0 ≤ k ∧ P k :=
        fun k hk => hmp k (hs1mp k hk)
      have hbp1 : ∀ k ∈ keysOf s1.touchedBp, Q k ∨ k = h0 := by
        intro k hk
        rcases keysOf_setKey s.touchedBp h0 t k (hs1bp k hk) with hin | hkeq
        · exact Or.inl (hbp k hin)
        · exact Or.inr hkeq
      have hhb1 : s1.highestBlock = -1 ∨ (Q s1.highestBlock ∨ s1.highestBlock = h0) := by
        rw [hs1hb]
        exact Or.inr (Or.inr rfl)
      rcases List.mem_append.1 hmem with hfirst | hrest
      · cases n1 with
        | none => simp at hfirst
        | some x =>
          have hx : (hn, tn) = x := by simpa using hfirst
          obtain ⟨hmemk, hbpk⟩ := hnotif hn tn (by rw [← hx])
          constructor
          · obtain ⟨hk0, hPk⟩ := hmp hn hmemk
            exact ⟨hn, le_refl hn, Or.inl hPk⟩
          · rcases hbpk with hin | hhigh
            · rcases keysOf_setKey s.touchedBp h0 t hn hin with hin2 | hkeq
              · exact ⟨hn, le_refl hn, Or.inl (hbp hn hin2)⟩
              · subst hkeq
                exact ⟨hn, le_refl hn, Or.inr ⟨t, List.mem_cons_self _ _⟩⟩
            · subst hhigh
              exact ⟨hn, le_refl hn, Or.inr ⟨t, List.mem_cons_self _ _⟩⟩
      · have hih := ih s1 P (fun k => Q k ∨ k = h0) hmp1 hbp1 hhb1 heves hn tn hrest
        obtain ⟨⟨k1, hk1l, hk1⟩, ⟨k2, hk2l, hk2⟩⟩ := hih
        constructor
        · rcases hk1 with hP | ⟨t2, n2, hm2⟩
          · exact ⟨k1, hk1l, Or.inl hP⟩
          · exact ⟨k1, hk1l, Or.inr ⟨t2, n2, List.mem_cons_of_mem _ hm2⟩⟩
        · rcases hk2 with (hQ | hkeq) | ⟨t2, hm2⟩
          · exact ⟨k2, hk2l, Or.inl hQ⟩
          · subst hkeq
            exact ⟨k2, hk2l, Or.inr ⟨t, List.mem_cons_self _ _⟩⟩
          · exact ⟨k2, hk2l, Or.inr ⟨t2, List.mem_cons_of_mem _ hm2⟩⟩
    | onMempool t nt h0 =>
      simp only [stepEvent] at hstep
      obtain ⟨hs1mp, hs1bp, hs1hb, hnotif⟩ :=
        maybeNotify_state_spec _ s1 n1 hstep
      simp only at hs1mp hs1bp hs1hb hnotif
      have hh0 : (0:ℤ) ≤ h0 := hev0
      have hmp1 : ∀ k ∈ keysOf s1.touchedMp, 0 ≤ k ∧ (P k ∨ k = h0) := by
        intro k hk
        rcases keysOf_setKey s.touchedMp h0 t k (hs1mp k hk) with hin | hkeq
        · obtain ⟨h1, h2⟩ := hmp k hin
          exact ⟨h1, Or.inl h2⟩
        · subst hkeq
          exact ⟨hh0, Or.inr rfl⟩
      have hbp1 : ∀ k ∈ keysOf s1.touchedBp, Q k :=
        fun k hk => hbp k (hs1bp k hk)
      have hhb1 : s1.highestBlock = -1 ∨ Q s1.highestBlock := by
        rw [hs1hb]
        exact hhb
      rcases List.mem_append.1 hmem with hfirst | hrest
      · cases n1 with
        | none => simp at hfirst
        | some x =>
          have hx : (hn, tn) = x := by simpa using hfirst
          obtain ⟨hmemk, hbpk⟩ := hnotif hn tn (by rw [← hx])
          have hn0 : (0:ℤ) ≤ hn := by
            rcases keysOf_setKey s.touchedMp h0 t hn hmemk with hin | hkeq
            · exact (hmp hn hin).1
            · subst hkeq
              exact hh0
          constructor
          · rcases keysOf_setKey s.touchedMp h0 t hn hmemk with hin | hkeq
            · exact ⟨hn, le_refl hn, Or.inl (hmp hn hin).2⟩
            · subst hkeq
              exact ⟨hn, le_refl hn, Or.inr ⟨t, nt, List.mem_cons_self _ _⟩⟩
          · rcases hbpk with hin | hhigh
            · exact ⟨hn, le_refl hn, Or.inl (hbp hn hin)⟩
            · rcases hhb with hneg | hQ
              · exfalso
                rw [hhigh, hneg] at hn0
                omega
              · rw [hhigh]
                exact ⟨s.highestBlock, by rw [← hhigh], Or.inl hQ⟩
      · have hih := ih s1 (fun k => P k ∨ k = h0) Q hmp1 hbp1 hhb1 heves hn tn hrest
        obtain ⟨⟨k1, hk1l, hk1⟩, ⟨k2, hk2l, hk2⟩⟩ := hih
        constructor
        · rcases hk1 with (hP | hkeq) | ⟨t2, n2, hm2⟩
          · exact ⟨k1, hk1l, Or.inl hP⟩
          · subst hkeq
            exact ⟨k1, hk1l, Or.inr ⟨t, nt, List.mem_cons_self _ _⟩⟩
          · exact ⟨k1, hk1l, Or.inr ⟨t2, n2, List.mem_cons_of_mem _ hm2⟩⟩
        · rcases hk2 with hQ | ⟨t2, hm2⟩
          · exact ⟨k2, hk2l, Or.inl hQ⟩
          · exact ⟨k2, hk2l, Or.inr ⟨t2, List.mem_cons_of_mem _ hm2⟩⟩

/-- **C9.** Starting from the initial mempool state, for every sequence
of `on_block`/`on_mempool` calls at (nonnegative) heights, whenever
`_maybe_notify` emits a per-height session notification at height `hn`,
a mempool touched-set was recorded by some `on_mempool` call at a height
`≤ hn` and a block touched-set was recorded by some `on_block` call at a
height `≤ hn`. -/
theorem mempool_notify_only_when_recorded (events : List MpEvent)
    (hev : ∀ e ∈ events, 0 ≤ e.heightOf) :
    ∀ hn tn, (hn, tn) ∈ (runEvents initNotifyState events).2 →
      (∃ t n k, k ≤ hn ∧ MpEvent.onMempool t n k ∈ events) ∧
      (∃ t k, k ≤ hn ∧ MpEvent.onBlock t k ∈ events) := by
  intro hn tn hmem
  have h := runEvents_notify_recorded events initNotifyState
    (fun _ => False) (fun _ => False)
    (by intro k hk; simp [initNotifyState, keysOf] at hk)
    (by intro k hk; simp [initNotifyState, keysOf] at hk)
    (Or.inl rfl) hev hn tn hmem
  obtain ⟨⟨k1, hk1l, hk1⟩, ⟨k2, hk2l, hk2⟩⟩ := h
  constructor
  · rcases hk1 with hf | ⟨t, n, hm⟩
    · exact absurd hf not_false
    · exact ⟨t, n, k1, hk1l, hm⟩
  · rcases hk2 with hf | ⟨t, hm⟩
    · exact absurd hf not_false
    · exact ⟨t, k2, hk2l, hm⟩

/-- Witness for C9: the two-event trace `on_block` at height 3 then
`on_mempool` at height 3, which emits exactly one notification at
height 3. -/
theorem mempool_notify_only_when_recorded_witness :
    (∀ e ∈ [MpEvent.onBlock [5] 3, MpEvent.onMempool [6] [] 3], 0 ≤ e.heightOf) ∧
    ((3, [6, 5]) ∈
      (runEvents initNotifyState
        [MpEvent.onBlock [5] 3, MpEvent.onMempool [6] [] 3]).2) ∧
    ((∃ t n k, k ≤ (3:ℤ) ∧
        MpEvent.onMempool t n k ∈ [MpEvent.onBlock [5] 3, MpEvent.onMempool [6] [] 3]) ∧
     (∃ t k, k ≤ (3:ℤ) ∧
        MpEvent.onBlock t k ∈ [MpEvent.onBlock [5] 3, MpEvent.onMempool [6] [] 3])) :=
  ⟨by decide, by decide,
   mempool_notify_only_when_recorded
     [MpEvent.onBlock [5] 3, MpEvent.onMempool [6] [] 3]
     (by decide) 3 [6, 5] (by decide)⟩

/-! ## MemPool refresh (`MemPool._process_mempool`,
`MemPool._accept_transactions`)

State: `txs: tx_hash → MemPoolTx` and `hashXs: hashX → set of tx hashes`
(a hashX can be `None`, hence `Option ℕ` keys).  `_process_mempool`
first drops the transactions that disappeared from the daemon's hash
set (removing them from each `hashXs` entry and deleting entries that
become empty), then accepts the fetched new transactions, iterating
`_accept_transactions` until no progress: a transaction is accepted when
every prevout resolves from the utxo map or from an already-accepted
mempool transaction's outputs, at which point its `in_pairs` are stored
and the transaction is added to `hashXs[hashX]` for every hashX of its
`in_pairs` and `out_pairs`. -/

/-- `MemPoolTx` (`raw_tx` omitted; `fee` is set on acceptance). -/
structure MemPoolTx where
  prevouts : List (ℕ × ℕ)
  inPairs : List (Option ℕ × ℕ)
  outPairs : List (Option ℕ × ℕ)
  fee : ℤ
  size : ℕ
  deriving DecidableEq, Repr

/-- The mempool maps. -/
structure MemPoolState where
  txs : List (ℕ × MemPoolTx)
  hashXs : List (Option ℕ × List ℕ)
  deriving Repr

/-- `hashXs[h]`, with `[]` for an absent key (defaultdict view). -/
def getH (hx : List (Option ℕ × List ℕ)) (h : Option ℕ) : List ℕ :=
  match hx.find? (fun p => p.1 == h) with
  | some p => p.2
  | none => []

/-- The hashXs of a transaction's `in_pairs` and `out_pairs`. -/
def pairsHashXs (tx : MemPoolTx) : List (Option ℕ) :=
  (tx.inPairs ++ tx.outPairs).map Prod.fst

/-- `hashXs[hashX].remove(tx_hash)` followed by
`if not hashXs[hashX]: del hashXs[hashX]`. -/
def removeTxFromHashXs (hx : List (Option ℕ × List ℕ)) (h : Option ℕ) (txh : ℕ) :
    List (Option ℕ × List ℕ) :=
  hx.filterMap (fun p =>
    if p.1 = h then
      (if p.2.erase txh = [] then none else some (p.1, p.2.erase txh))
    else some p)

/-- Adding an element to a set kept as a duplicate-free list. -/
def addVal (txh : ℕ) (l : List ℕ) : List ℕ :=
  if txh ∈ l then l else l ++ [txh]

/-- `hashXs[hashX].add(hash)` (defaultdict of sets). -/
def addToHashXs (hx : List (Option ℕ × List ℕ)) (h : Option ℕ) (txh : ℕ) :
    List (Option ℕ × List ℕ) :=
  if h ∈ hx.map Prod.fst then
    hx.map (fun p => if p.1 = h then (p.1, addVal txh p.2) else p)
  else hx ++ [(h, [txh])]

/-- Well-formedness of the `hashXs` dict: distinct keys, and every entry
a non-empty duplicate-free set (defaultdict entries are created on add
and deleted when emptied, so present keys always hold non-empty sets). -/
def wfHashXs (hx : List (Option ℕ × List ℕ)) : Prop :=
  (hx.map Prod.fst).Nodup ∧ ∀ p ∈ hx, p.2 ≠ [] ∧ p.2.Nodup


/-- `getH` on a cons whose head has the looked-up key. -/
theorem getH_cons_self (q : Option ℕ × List ℕ) (rest : List (Option ℕ × List ℕ))
    (h2 : Option ℕ) (hq : q.1 = h2) : getH (q :: rest) h2 = q.2 := by
  unfold getH
  rw [List.find?_cons_of_pos _ (by simp [hq])]

/-- `getH` on a cons whose head has another key. -/
theorem getH_cons_ne (q : Option ℕ × List ℕ) (rest : List (Option ℕ × List ℕ))
    (h2 : Option ℕ) (hq : ¬ q.1 = h2) : getH (q :: rest) h2 = getH rest h2 := by
  unfold getH
  rw [List.find?_cons_of_neg _ (by simp [hq])]

/-- Absent keys read as the empty set. -/
theorem getH_eq_nil_of_not_mem (hx : List (Option ℕ × List ℕ)) (k : Option ℕ)
    (hk : k ∉ hx.map Prod.fst) : getH hx k = [] := by
  unfold getH
  rw [List.find?_eq_none.2]
  intro q hq
  simp only [beq_iff_eq]
  intro hqk
  exact hk (List.mem_map.2 ⟨q, hq, hqk⟩)

/-- Removal does not introduce keys. -/
theorem keysOf_removeTxFromHashXs_subset (hx : List (Option ℕ × List ℕ))
    (h : Option ℕ) (txh : ℕ) :
    ∀ k ∈ (removeTxFromHashXs hx h txh).map Prod.fst, k ∈ hx.map Prod.fst := by
  intro k hk
  obtain ⟨q, hq, hqk⟩ := List.mem_map.1 hk
  obtain ⟨q0, hq0, hq0e⟩ := List.mem_filterMap.1 hq
  by_cases hq0h : q0.1 = h
  · rw [if_pos hq0h] at hq0e
    by_cases he : q0.2.erase txh = []
    · rw [if_pos he] at hq0e
      exact Option.noConfusion hq0e
    · rw [if_neg he] at hq0e
      injection hq0e with hq0e2
      rw [← hq0e2] at hqk
      exact List.mem_map.2 ⟨q0, hq0, hqk⟩
  · rw [if_neg hq0h] at hq0e
    injection hq0e with hq0e2
    rw [hq0e2] at hq0
    exact List.mem_map.2 ⟨q, hq0, hqk⟩

/-- Pointwise effect of one `remove` on the dict view: the looked-up key
loses `txh` (entries emptied by the removal read as `[]` either way),
other keys are untouched. -/
theorem getH_removeTxFromHashXs (hx : List (Option ℕ × List ℕ))
    (h : Option ℕ) (txh : ℕ) (hnd : (hx.map Prod.fst).Nodup) (h2 : Option ℕ) :
    getH (removeTxFromHashXs hx h txh) h2 =
      if h2 = h then (getH hx h).erase txh else getH hx h2 := by
  induction hx with
  | nil => by_cases hh : h2 = h <;> simp [removeTxFromHashXs, getH, hh]
  | cons p rest ih =>
    have hnd2 : (p.1 :: rest.map Prod.fst).Nodup := by simpa using hnd
    obtain ⟨hp, hrest⟩ := List.nodup_cons.1 hnd2
    have ih2 := ih hrest
    by_cases hph : p.1 = h
    · by_cases he : p.2.erase txh = []
      · have hstep : removeTxFromHashXs (p :: rest) h txh =
            removeTxFromHashXs rest h txh := by
          unfold removeTxFromHashXs
          exact List.filterMap_cons_none (by simp [hph, he])
        rw [hstep, ih2]
        by_cases hh : h2 = h
        · rw [if_pos hh, if_pos hh,
              getH_cons_self p rest h hph,
              getH_eq_nil_of_not_mem rest h (by rw [← hph]; exact hp), he]
          simp
        · rw [if_neg hh, if_neg hh,
              getH_cons_ne p rest h2 (by rw [hph]; exact fun hc => hh hc.symm)]
      · have hstep : removeTxFromHashXs (p :: rest) h txh =
            (p.1, p.2.erase txh) :: removeTxFromHashXs rest h txh := by
          unfold removeTxFromHashXs
          exact List.filterMap_cons_some (by simp [hph, he])
        rw [hstep]
        by_cases hh : h2 = h
        · rw [if_pos hh,
              getH_cons_self (p.1, p.2.erase txh) _ h2 (by rw [hph, hh]),
              getH_cons_self p rest h hph]
        · rw [if_neg hh,
              getH_cons_ne (p.1, p.2.erase txh) _ h2
                (by rw [hph]; exact fun hc => hh hc.symm),
              getH_cons_ne p rest h2 (by rw [hph]; exact fun hc => hh hc.symm),
              ih2, if_neg hh]
    · have hstep : removeTxFromHashXs (p :: rest) h txh =
          p :: removeTxFromHashXs rest h txh := by
        unfold removeTxFromHashXs
        exact List.filterMap_cons_some (by simp [hph])
      rw [hstep]
      by_cases hh2 : p.1 = h2
      · rw [getH_cons_self p _ h2 hh2,
            if_neg (fun hc => hph (hh2.trans hc)),
            getH_cons_self p rest h2 hh2]
      · rw [getH_cons_ne p _ h2 hh2, ih2]
        by_cases hh : h2 = h
        · rw [if_pos hh, if_pos hh, getH_cons_ne p rest h hph]
        · rw [if_neg hh, if_neg hh, getH_cons_ne p rest h2 hh2]

/-- Removal keeps the dict's key order (as a sublist). -/
theorem keysOf_removeTxFromHashXs_sublist (hx : List (Option ℕ × List ℕ))
    (h : Option ℕ) (txh : ℕ) :
    ((removeTxFromHashXs hx h txh).map Prod.fst).Sublist (hx.map Prod.fst) := by
  induction hx with
  | nil => simp [removeTxFromHashXs]
  | cons p rest ih =>
    by_cases hph : p.1 = h
    · by_cases he : p.2.erase txh = []
      · rw [show removeTxFromHashXs (p :: rest) h txh = removeTxFromHashXs rest h txh
            from by unfold removeTxFromHashXs
                    exact List.filterMap_cons_none (by simp [hph, he])]
        exact ih.trans (List.sublist_cons_self _ _)
      · rw [show removeTxFromHashXs (p :: rest) h txh =
              (p.1, p.2.erase txh) :: removeTxFromHashXs rest h txh
            from by unfold removeTxFromHashXs
                    exact List.filterMap_cons_some (by simp [hph, he])]
        simp only [List.map_cons]
        exact ih.cons₂ _
    · rw [show removeTxFromHashXs (p :: rest) h txh =
            p :: removeTxFromHashXs rest h txh
          from by unfold removeTxFromHashXs
                  exact List.filterMap_cons_some (by simp [hph])]
      simp only [List.map_cons]
      exact ih.cons₂ _

/-- One `remove` keeps the dict well-formed. -/
theorem wf_removeTxFromHashXs (hx : List (Option ℕ × List ℕ)) (h : Option ℕ)
    (txh : ℕ) (hwf : wfHashXs hx) : wfHashXs (removeTxFromHashXs hx h txh) := by
  obtain ⟨hnd, hvals⟩ := hwf
  constructor
  · exact (keysOf_removeTxFromHashXs_sublist hx h txh).nodup hnd
  · intro q hq
    obtain ⟨q0, hq0, hq0e⟩ := List.mem_filterMap.1 hq
    by_cases hq0h : q0.1 = h
    · rw [if_pos hq0h] at hq0e
      by_cases he : q0.2.erase txh = []
      · rw [if_pos he] at hq0e
        exact Option.noConfusion hq0e
      · rw [if_neg he] at hq0e
        injection hq0e with h2
        rw [← h2]
        exact ⟨he, ((hvals q0 hq0).2).erase _⟩
    · rw [if_neg hq0h] at hq0e
      injection hq0e with h2
      rw [← h2]
      exact hvals q0 hq0

/-- The sets read off a well-formed dict are duplicate-free. -/
theorem getH_nodup (hx : List (Option ℕ × List ℕ)) (hwf : wfHashXs hx)
    (h2 : Option ℕ) : (getH hx h2).Nodup := by
  rcases hfind : hx.find? (fun p => p.1 == h2) with _ | p
  · unfold getH
    rw [hfind]
    exact List.nodup_nil
  · unfold getH
    rw [hfind]
    exact (hwf.2 p (List.mem_of_find?_eq_some hfind)).2

/-- Pointwise effect of the removal fold over a duplicate-free hashX
list, together with well-formedness. -/
theorem foldRemove_spec (hlist : List (Option ℕ)) (hx : List (Option ℕ × List ℕ))
    (txh : ℕ) (hwf : wfHashXs hx) (hndl : hlist.Nodup) :
    wfHashXs (hlist.foldl (fun a hh => removeTxFromHashXs a hh txh) hx) ∧
    ∀ h2, getH (hlist.foldl (fun a hh => removeTxFromHashXs a hh txh) hx) h2 =
      if h2 ∈ hlist then (getH hx h2).erase txh else getH hx h2 := by
  induction hlist generalizing hx with
  | nil => exact ⟨hwf, fun h2 => by simp⟩
  | cons hh hs ih =>
    obtain ⟨hnotin, hshnd⟩ := List.nodup_cons.1 hndl
    have hwf1 := wf_removeTxFromHashXs hx hh txh hwf
    obtain ⟨ihwf, ihget⟩ := ih (removeTxFromHashXs hx hh txh) hwf1 hshnd
    refine ⟨ihwf, ?_⟩
    intro h2
    rw [List.foldl_cons, ihget h2]
    by_cases hmem : h2 ∈ hs
    · rw [if_pos hmem, if_pos (List.mem_cons_of_mem _ hmem),
          getH_removeTxFromHashXs hx hh txh hwf.1 h2,
          if_neg (fun hc => hnotin (by rw [← hc]; exact hmem))]
    · by_cases hh2 : h2 = hh
      · rw [if_neg hmem, if_pos (by rw [hh2]; exact List.mem_cons_self _ _),
            getH_removeTxFromHashXs hx hh txh hwf.1 h2, if_pos hh2, hh2]
      · rw [if_neg hmem, if_neg (by simp [hh2, hmem]),
            getH_removeTxFromHashXs hx hh txh hwf.1 h2, if_neg hh2]


/-- The added element is in the set. -/
theorem mem_addVal (txh : ℕ) (l : List ℕ) : txh ∈ addVal txh l := by
  unfold addVal
  by_cases h : txh ∈ l
  · rw [if_pos h]
    exact h
  · rw [if_neg h]
    simp

/-- Set-add is idempotent. -/
theorem addVal_idem (txh : ℕ) (l : List ℕ) :
    addVal txh (addVal txh l) = addVal txh l := by
  unfold addVal
  by_cases h : txh ∈ l
  · rw [if_pos h, if_pos h]
  · rw [if_neg h, if_pos (by simp)]

/-- Membership in the updated set. -/
theorem mem_addVal_iff (a txh : ℕ) (l : List ℕ) :
    a ∈ addVal txh l ↔ a ∈ l ∨ a = txh := by
  unfold addVal
  by_cases h : txh ∈ l
  · rw [if_pos h]
    constructor
    · exact Or.inl
    · rintro (ha | rfl)
      · exact ha
      · exact h
  · rw [if_neg h]
    simp

/-- Set-add keeps the set non-empty and duplicate-free. -/
theorem addVal_wf (txh : ℕ) (l : List ℕ) (hnd : l.Nodup) :
    addVal txh l ≠ [] ∧ (addVal txh l).Nodup := by
  unfold addVal
  by_cases h : txh ∈ l
  · rw [if_pos h]
    exact ⟨fun hc => by rw [hc] at h; exact absurd h (List.not_mem_nil _), hnd⟩
  · rw [if_neg h]
    refine ⟨by simp, ?_⟩
    simp only [List.nodup_append]
    exact ⟨hnd, List.nodup_singleton txh,
      fun a ha hb => h (by
        obtain rfl : a = txh := by simpa using hb
        exact ha)⟩

/-- The add map-step is the identity on entries of other keys. -/
theorem mapAdd_of_not_mem (rest : List (Option ℕ × List ℕ)) (h : Option ℕ)
    (txh : ℕ) (hmem : h ∉ rest.map Prod.fst) :
    rest.map (fun p => if p.1 = h then (p.1, addVal txh p.2) else p) = rest := by
  induction rest with
  | nil => rfl
  | cons q qs ih =>
    have hq : ¬ q.1 = h := fun hc =>
      hmem (List.mem_map.2 ⟨q, List.mem_cons_self _ _, hc⟩)
    rw [List.map_cons, if_neg hq,
        ih (fun hm => hmem (by
          obtain ⟨q2, hq2, hq2e⟩ := List.mem_map.1 hm
          exact List.mem_map.2 ⟨q2, List.mem_cons_of_mem _ hq2, hq2e⟩))]

/-- Reading after appending a fresh key's entry. -/
theorem getH_append_one (hx : List (Option ℕ × List ℕ)) (h : Option ℕ) (txh : ℕ)
    (h2 : Option ℕ) (hmem : h ∉ hx.map Prod.fst) :
    getH (hx ++ [(h, [txh])]) h2 = if h2 = h then [txh] else getH hx h2 := by
  induction hx with
  | nil =>
    by_cases hh : h2 = h
    · rw [List.nil_append, if_pos hh, getH_cons_self (h, [txh]) [] h2 hh.symm]
    · rw [List.nil_append, if_neg hh,
          getH_cons_ne (h, [txh]) [] h2 (fun hc => hh hc.symm)]
  | cons p rest ih =>
    have hp : ¬ p.1 = h := fun hc =>
      hmem (List.mem_map.2 ⟨p, List.mem_cons_self _ _, hc⟩)
    have hmem2 : h ∉ rest.map Prod.fst := fun hm => hmem (by
      obtain ⟨q2, hq2, hq2e⟩ := List.mem_map.1 hm
      exact List.mem_map.2 ⟨q2, List.mem_cons_of_mem _ hq2, hq2e⟩)
    rw [List.cons_append]
    by_cases hh2 : p.1 = h2
    · rw [getH_cons_self p _ h2 hh2, if_neg (fun hc => hp (hh2.trans hc)),
          getH_cons_self p rest h2 hh2]
    · rw [getH_cons_ne p _ h2 hh2, ih hmem2]
      by_cases hh : h2 = h
      · rw [if_pos hh, if_pos hh]
      · rw [if_neg hh, if_neg hh, getH_cons_ne p rest h2 hh2]

/-- Pointwise effect of the add map-step when the key is present. -/
theorem getH_mapAdd (hx : List (Option ℕ × List ℕ)) (h : Option ℕ) (txh : ℕ)
    (hnd : (hx.map Prod.fst).Nodup) (h2 : Option ℕ) :
    getH (hx.map (fun p => if p.1 = h then (p.1, addVal txh p.2) else p)) h2 =
      if h2 = h ∧ h ∈ hx.map Prod.fst then addVal txh (getH hx h)
      else getH hx h2 := by
  induction hx with
  | nil => simp
  | cons p rest ih =>
    have hnd2 : (p.1 :: rest.map Prod.fst).Nodup := by simpa using hnd
    obtain ⟨hp, hrest⟩ := List.nodup_cons.1 hnd2
    have ih2 := ih hrest
    rw [List.map_cons]
    by_cases hph : p.1 = h
    · rw [if_pos hph, mapAdd_of_not_mem rest h txh (by rw [← hph]; exact hp)]
      by_cases hh : h2 = h
      · have hcond : h2 = h ∧ h ∈ (p :: rest).map Prod.fst :=
          ⟨hh, List.mem_map.2 ⟨p, List.mem_cons_self _ _, hph⟩⟩
        have hk1 : ((p.1, addVal txh p.2) : Option ℕ × List ℕ).1 = h2 := by
          rw [hh, hph]
        rw [if_pos hcond, getH_cons_self (p.1, addVal txh p.2) rest h2 hk1,
            getH_cons_self p rest h hph]
      · have hk1 : ¬ ((p.1, addVal txh p.2) : Option ℕ × List ℕ).1 = h2 := by
          simp only
          rw [hph]
          exact fun hc => hh hc.symm
        have hk2 : ¬ p.1 = h2 := by
          rw [hph]
          exact fun hc => hh hc.symm
        rw [if_neg (fun hc => hh hc.1),
            getH_cons_ne (p.1, addVal txh p.2) rest h2 hk1,
            getH_cons_ne p rest h2 hk2]
    · rw [if_neg hph]
      by_cases hh2 : p.1 = h2
      · have hcond : ¬ (h2 = h ∧ h ∈ (p :: rest).map Prod.fst) := by
          rintro ⟨hc1, -⟩
          exact hph (hh2.trans hc1)
        rw [if_neg hcond, getH_cons_self p _ h2 hh2, getH_cons_self p rest h2 hh2]
      · rw [getH_cons_ne p _ h2 hh2, ih2, getH_cons_ne p rest h2 hh2]
        by_cases hcond : h2 = h ∧ h ∈ rest.map Prod.fst
        · have hcond2 : h2 = h ∧ h ∈ (p :: rest).map Prod.fst := by
            refine ⟨hcond.1, ?_⟩
            simp only [List.map_cons]
            exact List.mem_cons_of_mem _ hcond.2
          have hk3 : ¬ p.1 = h := fun hc => hph hc
          rw [if_pos hcond, if_pos hcond2,
              getH_cons_ne p rest h hk3]
        · by_cases hcond2 : h2 = h ∧ h ∈ (p :: rest).map Prod.fst
          · exfalso
            obtain ⟨hc1, hc2⟩ := hcond2
            simp only [List.map_cons] at hc2
            rcases List.mem_cons.1 hc2 with hc3 | hc3
            · exact hph hc3.symm
            · exact hcond ⟨hc1, hc3⟩
          · rw [if_neg hcond, if_neg hcond2]

/-- Pointwise effect of one `hashXs[hashX].add(tx_hash)`. -/
theorem getH_addToHashXs (hx : List (Option ℕ × List ℕ)) (h : Option ℕ)
    (txh : ℕ) (hnd : (hx.map Prod.fst).Nodup) (h2 : Option ℕ) :
    getH (addToHashXs hx h txh) h2 =
      if h2 = h then addVal txh (getH hx h) else getH hx h2 := by
  unfold addToHashXs
  by_cases hmem : h ∈ hx.map Prod.fst
  · rw [if_pos hmem, getH_mapAdd hx h txh hnd h2]
    by_cases hh : h2 = h
    · rw [if_pos ⟨hh, hmem⟩, if_pos hh]
    · rw [if_neg (fun hc => hh hc.1), if_neg hh]
  · rw [if_neg hmem, getH_append_one hx h txh h2 hmem]
    by_cases hh : h2 = h
    · rw [if_pos hh, if_pos hh, getH_eq_nil_of_not_mem hx h hmem]
      unfold addVal
      rw [if_neg (List.not_mem_nil txh), List.nil_append]
    · rw [if_neg hh, if_neg hh]

/-- Keys after one add: unchanged, or the written key appended. -/
theorem keysOf_addToHashXs (hx : List (Option ℕ × List ℕ)) (h : Option ℕ)
    (txh : ℕ) :
    (addToHashXs hx h txh).map Prod.fst =
      if h ∈ hx.map Prod.fst then hx.map Prod.fst else hx.map Prod.fst ++ [h] := by
  unfold addToHashXs
  by_cases hmem : h ∈ hx.map Prod.fst
  · rw [if_pos hmem, if_pos hmem, List.map_map]
    refine List.map_congr_left ?_
    intro p hp
    by_cases hc : p.1 = h <;> simp [hc]
  · rw [if_neg hmem, if_neg hmem, List.map_append]
    rfl

/-- One add keeps the dict well-formed. -/
theorem wf_addToHashXs (hx : List (Option ℕ × List ℕ)) (h : Option ℕ)
    (txh : ℕ) (hwf : wfHashXs hx) : wfHashXs (addToHashXs hx h txh) := by
  obtain ⟨hnd, hvals⟩ := hwf
  constructor
  · rw [keysOf_addToHashXs hx h txh]
    by_cases hmem : h ∈ hx.map Prod.fst
    · rw [if_pos hmem]
      exact hnd
    · rw [if_neg hmem]
      refine hnd.append (List.nodup_singleton h) ?_
      intro a ha hb
      obtain rfl : a = h := by simpa using hb
      exact hmem ha
  · intro q hq
    unfold addToHashXs at hq
    by_cases hmem : h ∈ hx.map Prod.fst
    · rw [if_pos hmem] at hq
      obtain ⟨q0, hq0, hq0e⟩ := List.mem_map.1 hq
      by_cases hq0h : q0.1 = h
      · rw [if_pos hq0h] at hq0e
        rw [← hq0e]
        exact addVal_wf txh q0.2 (hvals q0 hq0).2
      · rw [if_neg hq0h] at hq0e
        rw [← hq0e]
        exact hvals q0 hq0
    · rw [if_neg hmem] at hq
      rcases List.mem_append.1 hq with h1 | h1
      · exact hvals q h1
      · have hq2 : q = (h, [txh]) := by simpa using h1
        rw [hq2]
        exact ⟨by simp, List.nodup_singleton txh⟩

/-- Pointwise effect of the add fold over the hashX list of a
transaction's pairs (duplicates allowed, as `set.add` is idempotent),
together with well-formedness. -/
theorem foldAdd_spec (hlist : List (Option ℕ)) (hx : List (Option ℕ × List ℕ))
    (txh : ℕ) (hwf : wfHashXs hx) :
    wfHashXs (hlist.foldl (fun a hh => addToHashXs a hh txh) hx) ∧
    ∀ h2, getH (hlist.foldl (fun a hh => addToHashXs a hh txh) hx) h2 =
      if h2 ∈ hlist then addVal txh (getH hx h2) else getH hx h2 := by
  induction hlist generalizing hx with
  | nil => exact ⟨hwf, fun h2 => by simp⟩
  | cons hh hs ih =>
    have hwf1 := wf_addToHashXs hx hh txh hwf
    obtain ⟨ihwf, ihget⟩ := ih (addToHashXs hx hh txh) hwf1
    refine ⟨ihwf, ?_⟩
    intro h2
    rw [List.foldl_cons, ihget h2]
    by_cases hmem : h2 ∈ hs
    · rw [if_pos hmem, if_pos (List.mem_cons_of_mem _ hmem),
          getH_addToHashXs hx hh txh hwf.1 h2]
      by_cases hh2 : h2 = hh
      · rw [if_pos hh2, addVal_idem, hh2]
      · rw [if_neg hh2]
    · by_cases hh2 : h2 = hh
      · rw [if_neg hmem, if_pos (by rw [hh2]; exact List.mem_cons_self _ _),
            getH_addToHashXs hx hh txh hwf.1 h2, if_pos hh2, hh2]
      · rw [if_neg hmem, if_neg (by simp [hh2, hmem]),
            getH_addToHashXs hx hh txh hwf.1 h2, if_neg hh2]

/-- Reading a present entry (distinct keys). -/
theorem getH_of_mem (hx : List (Option ℕ × List ℕ))
    (hnd : (hx.map Prod.fst).Nodup) (p : Option ℕ × List ℕ) (hp : p ∈ hx) :
    getH hx p.1 = p.2 := by
  induction hx with
  | nil => cases hp
  | cons q rest ih =>
    have hnd2 : (q.1 :: rest.map Prod.fst).Nodup := by simpa using hnd
    obtain ⟨hq, hrest⟩ := List.nodup_cons.1 hnd2
    rcases List.mem_cons.1 hp with rfl | hp2
    · exact getH_cons_self p rest p.1 rfl
    · have hne : ¬ q.1 = p.1 :=
        fun hc => hq (by rw [hc]; exact List.mem_map.2 ⟨p, hp2, rfl⟩)
      rw [getH_cons_ne q rest p.1 hne]
      exact ih hrest hp2

/-- `tx = txs.pop(tx_hash)` plus the `hashXs` removal loop of
`_process_mempool` for one disappeared transaction. -/
def removeTx (s : MemPoolState) (txh : ℕ) : MemPoolState :=
  match s.txs.find? (fun p => p.1 == txh) with
  | none => s
  | some pr =>
    ⟨s.txs.filter (fun p => !(p.1 == txh)),
     ((pairsHashXs pr.2).dedup).foldl (fun hx h => removeTxFromHashXs hx h txh)
       s.hashXs⟩

/-- The disappeared-transaction sweep of `_process_mempool`:
`for tx_hash in set(txs).difference(all_hashes)`. -/
def removeDisappeared (s : MemPoolState) (allHashes : List ℕ) : MemPoolState :=
  ((s.txs.map Prod.fst).filter (fun k => !decide (k ∈ allHashes))).foldl removeTx s

/-- Mutual consistency of `txs` and `hashXs` (C10): distinct tx keys; a
well-formed `hashXs` dict (distinct keys, every present entry a
non-empty duplicate-free set — empty entries are deleted); every
recorded tx hash a key of `txs`; and every transaction recorded in
`hashXs[h]` for exactly the `h` of its `in_pairs` and `out_pairs`. -/
def mempoolConsistent (s : MemPoolState) : Prop :=
  (s.txs.map Prod.fst).Nodup ∧
  wfHashXs s.hashXs ∧
  (∀ h2 txh, txh ∈ getH s.hashXs h2 → txh ∈ s.txs.map Prod.fst) ∧
  (∀ q ∈ s.txs, ∀ h2, (h2 ∈ pairsHashXs q.2 ↔ q.1 ∈ getH s.hashXs h2))

/-- Removing one disappeared transaction preserves consistency. -/
theorem removeTx_consistent (s : MemPoolState) (txh : ℕ)
    (hc : mempoolConsistent s) : mempoolConsistent (removeTx s txh) := by
  obtain ⟨hndtx, hwf, hsub, hiff⟩ := hc
  unfold removeTx
  rcases hfind : s.txs.find? (fun p => p.1 == txh) with _ | pr <;> rw [hfind]
  · exact ⟨hndtx, hwf, hsub, hiff⟩
  · have hprmem : pr ∈ s.txs := List.mem_of_find?_eq_some hfind
    have hprkey : pr.1 = txh := by simpa using List.find?_some hfind
    obtain ⟨hwf2, hget⟩ := foldRemove_spec ((pairsHashXs pr.2).dedup) s.hashXs txh
      hwf (List.nodup_dedup _)
    have hkeyfilter : ∀ t, t ∈ s.txs.map Prod.fst → t ≠ txh →
        t ∈ (s.txs.filter (fun p => !(p.1 == txh))).map Prod.fst := by
      intro t htm htne
      obtain ⟨q, hq, hqe⟩ := List.mem_map.1 htm
      refine List.mem_map.2 ⟨q, List.mem_filter.2 ⟨hq, ?_⟩, hqe⟩
      simp [hqe, htne]
    refine ⟨?_, hwf2, ?_, ?_⟩
    · exact ((List.filter_sublist s.txs).map Prod.fst).nodup hndtx
    · intro h2 t ht
      rw [hget h2] at ht
      by_cases hm : h2 ∈ (pairsHashXs pr.2).dedup
      · rw [if_pos hm] at ht
        have htmem := List.mem_of_mem_erase ht
        have htne : t ≠ txh :=
          ((getH_nodup s.hashXs hwf h2).mem_erase_iff.1 ht).1
        exact hkeyfilter t (hsub h2 t htmem) htne
      · rw [if_neg hm] at ht
        have htne : t ≠ txh := by
          intro hceq
          subst hceq
          have hp := (hiff pr hprmem h2).2 (by rw [hprkey]; exact ht)
          exact hm (List.mem_dedup.2 hp)
        exact hkeyfilter t (hsub h2 t ht) htne
    · intro q hq h2
      have hqmem : q ∈ s.txs := List.mem_of_mem_filter hq
      have hqne : ¬ (q.1 = txh) := by
        have hf := List.of_mem_filter hq
        simpa using hf
      rw [hget h2]
      by_cases hm : h2 ∈ (pairsHashXs pr.2).dedup
      · rw [if_pos hm, (getH_nodup s.hashXs hwf h2).mem_erase_iff]
        constructor
        · intro hp
          exact ⟨hqne, (hiff q hqmem h2).1 hp⟩
        · rintro ⟨-, hp⟩
          exact (hiff q hqmem h2).2 hp
      · rw [if_neg hm]
        exact hiff q hqmem h2

/-- The disappeared-sweep preserves consistency. -/
theorem foldRemoveTx_consistent (l : List ℕ) :
    ∀ s, mempoolConsistent s → mempoolConsistent (l.foldl removeTx s) := by
  induction l with
  | nil => exact fun s hc => hc
  | cons t ts ih => exact fun s hc => ih (removeTx s t) (removeTx_consistent s t hc)

theorem removeDisappeared_consistent (s : MemPoolState) (allHashes : List ℕ)
    (hc : mempoolConsistent s) :
    mempoolConsistent (removeDisappeared s allHashes) :=
  foldRemoveTx_consistent _ s hc

/-- Sum of the values of a pair list (`sum(v for _, v in pairs)`). -/
def sumSnd (l : List (Option ℕ × ℕ)) : ℤ :=
  (l.map (fun p => (p.2 : ℤ))).sum

/-- Prevout resolution for one transaction (`utxo_map.get(prevout)` then
`txs[prev_hash].out_pairs[prev_index]`): `.ok none` models the caught
`KeyError` (the transaction is deferred), `.error` the uncaught
`IndexError`; DB lookup failures are stored `None` values in the utxo
map and fall through to the mempool lookup just like missing keys. -/
def resolveIns (txs : List (ℕ × MemPoolTx))
    (utxoMap : List ((ℕ × ℕ) × Option (Option ℕ × ℕ))) :
    List (ℕ × ℕ) → Except Unit (Option (List (Option ℕ × ℕ)))
  | [] => .ok (some [])
  | pv :: rest =>
    match (match utxoMap.find? (fun kv => kv.1 == pv) with
           | some kv => kv.2
           | none => none) with
    | some u2 =>
      match resolveIns txs utxoMap rest with
      | .error e => .error e
      | .ok none => .ok none
      | .ok (some l) => .ok (some (u2 :: l))
    | none =>
      match txs.find? (fun p => p.1 == pv.1) with
      | none => .ok none
      | some p =>
        match p.2.outPairs.get? pv.2 with
        | none => .error ()
        | some u2 =>
          match resolveIns txs utxoMap rest with
          | .error e => .error e
          | .ok none => .ok none
          | .ok (some l) => .ok (some (u2 :: l))

/-- One `_accept_transactions` call: fold over `tx_map` in order,
accepting a transaction (store `in_pairs`, compute
`fee = max(0, Σin − Σout)`, write `txs[hash]` and update `hashXs`) when
all its prevouts resolve, deferring it otherwise; `unspent` tracks the
utxo keys not consumed by accepted transactions. -/
def acceptTransactions (utxoMap : List ((ℕ × ℕ) × Option (Option ℕ × ℕ)))
    (s : MemPoolState) (deferred : List (ℕ × MemPoolTx))
    (unspent : List (ℕ × ℕ)) :
    List (ℕ × MemPoolTx) →
      Except Unit (MemPoolState × List (ℕ × MemPoolTx) × List (ℕ × ℕ))
  | [] => .ok (s, deferred, unspent)
  | (h, tx) :: rest =>
    match resolveIns s.txs utxoMap tx.prevouts with
    | .error e => .error e
    | .ok none => acceptTransactions utxoMap s (deferred ++ [(h, tx)]) unspent rest
    | .ok (some inPairs) =>
      acceptTransactions utxoMap
        ⟨s.txs ++ [(h, { tx with inPairs := inPairs,
                                 fee := max 0 (sumSnd inPairs - sumSnd tx.outPairs) })],
         (pairsHashXs { tx with inPairs := inPairs,
                                fee := max 0 (sumSnd inPairs - sumSnd tx.outPairs) }).foldl
           (fun a hh => addToHashXs a hh h) s.hashXs⟩
        deferred (unspent.filter (fun k => !decide (k ∈ tx.prevouts))) rest

/-- The `while tx_map and len(tx_map) != prior_count` loop of
`_process_mempool`, fuel-bounded (the fuel `|tx_map| + 1` dominates the
number of iterations since `deferred ⊆ tx_map` must shrink to make
progress); the next round's utxo map keeps only the unspent keys. -/
def processLoop : ℕ → MemPoolState → List (ℕ × MemPoolTx) →
    List ((ℕ × ℕ) × Option (Option ℕ × ℕ)) → ℕ → Except Unit MemPoolState
  | 0, s, _, _, _ => .ok s
  | fuel + 1, s, txMap, utxoMap, priorCount =>
    if txMap ≠ [] ∧ txMap.length ≠ priorCount then
      match acceptTransactions utxoMap s [] (utxoMap.map Prod.fst) txMap with
      | .error e => .error e
      | .ok (s2, deferred, unspentKeys) =>
        processLoop fuel s2 deferred
          (utxoMap.filter (fun kv => decide (kv.1 ∈ unspentKeys))) txMap.length
    else .ok s

/-- `_process_mempool` over a daemon hash set: drop the disappeared
transactions, then accept the fetched new transactions (`txMap`, with
the prevout lookups fetched into `utxoMap`) until no progress. -/
def processMempool (s : MemPoolState) (allHashes : List ℕ)
    (txMap : List (ℕ × MemPoolTx))
    (utxoMap : List ((ℕ × ℕ) × Option (Option ℕ × ℕ))) :
    Except Unit MemPoolState :=
  processLoop (txMap.length + 1) (removeDisappeared s allHashes) txMap utxoMap 0

/-- Accepting one fresh transaction preserves consistency. -/
theorem accept_one_consistent (s : MemPoolState) (h : ℕ) (tx2 : MemPoolTx)
    (hc : mempoolConsistent s) (hfresh : h ∉ s.txs.map Prod.fst) :
    mempoolConsistent ⟨s.txs ++ [(h, tx2)],
      (pairsHashXs tx2).foldl (fun a hh => addToHashXs a hh h) s.hashXs⟩ := by
  obtain ⟨hndtx, hwf, hsub, hiff⟩ := hc
  obtain ⟨hwf2, hget⟩ := foldAdd_spec (pairsHashXs tx2) s.hashXs h hwf
  have hfreshget : ∀ h2, h ∉ getH s.hashXs h2 :=
    fun h2 hmem => hfresh (hsub h2 h hmem)
  refine ⟨?_, hwf2, ?_, ?_⟩
  · rw [List.map_append]
    refine hndtx.append (by simp) ?_
    intro a ha hb
    obtain rfl : a = h := by simpa using hb
    exact hfresh ha
  · intro h2 t ht
    rw [hget h2] at ht
    rw [List.map_append]
    by_cases hm : h2 ∈ pairsHashXs tx2
    · rw [if_pos hm] at ht
      rcases (mem_addVal_iff t h (getH s.hashXs h2)).1 ht with h1 | h1
      · exact List.mem_append_left _ (hsub h2 t h1)
      · rw [h1]
        exact List.mem_append_right _ (by simp)
    · rw [if_neg hm] at ht
      exact List.mem_append_left _ (hsub h2 t ht)
  · intro q hq h2
    rcases List.mem_append.1 hq with hq1 | hq1
    · have hqne : q.1 ≠ h := fun hc2 =>
        hfresh (by rw [← hc2]; exact List.mem_map.2 ⟨q, hq1, rfl⟩)
      rw [hget h2]
      by_cases hm : h2 ∈ pairsHashXs tx2
      · rw [if_pos hm, mem_addVal_iff]
        constructor
        · intro hp
          exact Or.inl ((hiff q hq1 h2).1 hp)
        · rintro (h1 | h1)
          · exact (hiff q hq1 h2).2 h1
          · exact absurd h1 hqne
      · rw [if_neg hm]
        exact hiff q hq1 h2
    · have hq2 : q = (h, tx2) := by simpa using hq1
      subst hq2
      rw [hget h2]
      by_cases hm : h2 ∈ pairsHashXs tx2
      · rw [if_pos hm]
        constructor
        · intro _
          exact mem_addVal h _
        · intro _
          exact hm
      · rw [if_neg hm]
        constructor
        · intro hp
          exact absurd hp hm
        · intro hmem2
          exact absurd hmem2 (hfreshget h2)

/-- One `_accept_transactions` call preserves consistency and hands back
a deferred map of still-fresh distinct keys. -/
theorem acceptTransactions_spec (utxoMap : List ((ℕ × ℕ) × Option (Option ℕ × ℕ)))
    (txMap : List (ℕ × MemPoolTx)) :
    ∀ (s : MemPoolState) (deferred : List (ℕ × MemPoolTx)) (unspent : List (ℕ × ℕ)),
    mempoolConsistent s →
    (txMap.map Prod.fst).Nodup →
    (deferred.map Prod.fst).Nodup →
    (∀ k ∈ txMap.map Prod.fst, k ∉ deferred.map Prod.fst) →
    (∀ k ∈ txMap.map Prod.fst, k ∉ s.txs.map Prod.fst) →
    (∀ k ∈ deferred.map Prod.fst, k ∉ s.txs.map Prod.fst) →
    ∀ s2 deferred2 unspent2,
      acceptTransactions utxoMap s deferred unspent txMap =
        .ok (s2, deferred2, unspent2) →
      mempoolConsistent s2 ∧
      (deferred2.map Prod.fst).Nodup ∧
      (∀ k ∈ deferred2.map Prod.fst, k ∉ s2.txs.map Prod.fst) := by
  induction txMap with
  | nil =>
    intro s deferred unspent hc _ hndd _ _ hds s2 d2 u2 hok
    injection hok with h1
    injection h1 with ha hbc
    injection hbc with hb hc2
    subst ha
    subst hb
    exact ⟨hc, hndd, hds⟩
  | cons ht rest ih =>
    obtain ⟨h, tx⟩ := ht
    intro s deferred unspent hc hndt hndd hdisj hts hds s2 d2 u2 hok
    have hhead : h ∈ ((h, tx) :: rest).map Prod.fst := by simp
    have hndt2 : (h :: rest.map Prod.fst).Nodup := by simpa using hndt
    obtain ⟨hhrest, hndrest⟩ := List.nodup_cons.1 hndt2
    unfold acceptTransactions at hok
    cases hres : resolveIns s.txs utxoMap tx.prevouts with
    | error e =>
      simp only [hres] at hok
      exact Except.noConfusion hok
    | ok o =>
      cases o with
      | none =>
        simp only [hres] at hok
        refine ih s (deferred ++ [(h, tx)]) unspent hc hndrest ?_ ?_ ?_ ?_
          s2 d2 u2 hok
        · rw [List.map_append]
          refine hndd.append (by simp) ?_
          intro a ha hb
          have hab : a = h := by simpa using hb
          rw [hab] at ha
          exact hdisj h hhead ha
        · intro k hk
          rw [List.map_append]
          intro hmem
          rcases List.mem_append.1 hmem with h1 | h1
          · exact hdisj k (by
              obtain ⟨q, hq, hqe⟩ := List.mem_map.1 hk
              exact List.mem_map.2 ⟨q, List.mem_cons_of_mem _ hq, hqe⟩) h1
          · have hkh : k = h := by simpa using h1
            exact hhrest (by rw [← hkh]; exact hk)
        · intro k hk
          exact hts k (by
            obtain ⟨q, hq, hqe⟩ := List.mem_map.1 hk
            exact List.mem_map.2 ⟨q, List.mem_cons_of_mem _ hq, hqe⟩)
        · intro k hk
          rw [List.map_append] at hk
          rcases List.mem_append.1 hk with h1 | h1
          · exact hds k h1
          · have : k = h := by simpa using h1
            subst this
            exact hts k hhead
      | some inPairs =>
        simp only [hres] at hok
        have hfresh : h ∉ s.txs.map Prod.fst := hts h hhead
        have hc2 := accept_one_consistent s h
          { tx with inPairs := inPairs,
                    fee := max 0 (sumSnd inPairs - sumSnd tx.outPairs) } hc hfresh
        refine ih _ deferred (unspent.filter (fun k => !decide (k ∈ tx.prevouts)))
          hc2 hndrest hndd ?_ ?_ ?_ s2 d2 u2 hok
        · intro k hk
          exact hdisj k (by
            obtain ⟨q, hq, hqe⟩ := List.mem_map.1 hk
            exact List.mem_map.2 ⟨q, List.mem_cons_of_mem _ hq, hqe⟩)
        · intro k hk
          simp only [List.map_append]
          intro hmem
          rcases List.mem_append.1 hmem with h1 | h1
          · exact hts k (by
              obtain ⟨q, hq, hqe⟩ := List.mem_map.1 hk
              exact List.mem_map.2 ⟨q, List.mem_cons_of_mem _ hq, hqe⟩) h1
          · have hkh : k = h := by simpa using h1
            exact hhrest (by rw [← hkh]; exact hk)
        · intro k hk
          simp only [List.map_append]
          intro hmem
          rcases List.mem_append.1 hmem with h1 | h1
          · exact hds k hk h1
          · have : k = h := by simpa using h1
            subst this
            exact hdisj k hhead hk

/-- The accept loop preserves consistency for any fuel. -/
theorem processLoop_spec (fuel : ℕ) :
    ∀ (s : MemPoolState) (txMap : List (ℕ × MemPoolTx))
      (utxoMap : List ((ℕ × ℕ) × Option (Option ℕ × ℕ))) (priorCount : ℕ),
    mempoolConsistent s →
    (txMap.map Prod.fst).Nodup →
    (∀ k ∈ txMap.map Prod.fst, k ∉ s.txs.map Prod.fst) →
    ∀ s2, processLoop fuel s txMap utxoMap priorCount = .ok s2 →
      mempoolConsistent s2 := by
  induction fuel with
  | zero =>
    intro s txMap utxoMap pc hc _ _ s2 hok
    injection hok with h1
    rw [← h1]
    exact hc
  | succ n ih =>
    intro s txMap utxoMap pc hc hnd hfresh s2 hok
    unfold processLoop at hok
    by_cases hcond : txMap ≠ [] ∧ txMap.length ≠ pc
    · rw [if_pos hcond] at hok
      cases hacc : acceptTransactions utxoMap s [] (utxoMap.map Prod.fst) txMap with
      | error e =>
        simp only [hacc] at hok
        exact Except.noConfusion hok
      | ok r =>
        obtain ⟨s3, deferred, unspentKeys⟩ := r
        simp only [hacc] at hok
        obtain ⟨hc3, hndd, hds⟩ := acceptTransactions_spec utxoMap txMap s []
          (utxoMap.map Prod.fst) hc hnd (by simp) (by simp) hfresh (by simp)
          s3 deferred unspentKeys hacc
        exact ih s3 deferred _ txMap.length hc3 hndd hds s2 hok
    · rw [if_neg hcond] at hok
      injection hok with h1
      rw [← h1]
      exact hc

/-- The empty mempool is consistent. -/
theorem mempoolConsistent_empty : mempoolConsistent ⟨[], []⟩ :=
  ⟨List.nodup_nil,
   ⟨List.nodup_nil, fun p hp => absurd hp (List.not_mem_nil p)⟩,
   fun h2 t ht => by simp [getH] at ht,
   fun q hq => absurd hq (List.not_mem_nil q)⟩

/-- **C10.** After a completed mempool refresh (`_process_mempool`
applied to any daemon hash set, starting from any consistent state, with
the fetched transactions carrying fresh distinct hashes), `txs` and
`hashXs` are mutually consistent: every `hashXs` key maps to a non-empty
set of hashes that are all keys of `txs` (entries emptied by removing a
disappeared transaction are deleted), and every transaction in `txs`
appears in `hashXs[h]` for exactly the `h` of its `in_pairs` and
`out_pairs`. -/
theorem mempool_refresh_consistent (s : MemPoolState) (allHashes : List ℕ)
    (txMap : List (ℕ × MemPoolTx))
    (utxoMap : List ((ℕ × ℕ) × Option (Option ℕ × ℕ))) (s2 : MemPoolState)
    (hc : mempoolConsistent s)
    (hnd : (txMap.map Prod.fst).Nodup)
    (hnew : ∀ k ∈ txMap.map Prod.fst,
      k ∉ (removeDisappeared s allHashes).txs.map Prod.fst)
    (hok : processMempool s allHashes txMap utxoMap = .ok s2) :
    mempoolConsistent s2 ∧
    (∀ p ∈ s2.hashXs, p.2 ≠ [] ∧ ∀ t ∈ p.2, t ∈ s2.txs.map Prod.fst) ∧
    (∀ q ∈ s2.txs, ∀ h2, (h2 ∈ pairsHashXs q.2 ↔ q.1 ∈ getH s2.hashXs h2)) := by
  have hc1 := removeDisappeared_consistent s allHashes hc
  have hc2 := processLoop_spec (txMap.length + 1) (removeDisappeared s allHashes)
    txMap utxoMap 0 hc1 hnd hnew s2 hok
  obtain ⟨hndtx, hwf, hsub, hiff⟩ := hc2
  refine ⟨⟨hndtx, hwf, hsub, hiff⟩, ?_, hiff⟩
  intro p hp
  refine ⟨(hwf.2 p hp).1, ?_⟩
  intro t htp
  have hgp : getH s2.hashXs p.1 = p.2 := getH_of_mem s2.hashXs hwf.1 p hp
  exact hsub p.1 t (by rw [hgp]; exact htp)

/-- Witness for C10: one fresh transaction with a single output accepted
into the empty mempool. -/
theorem mempool_refresh_consistent_witness :
    mempoolConsistent ⟨[], []⟩ ∧
    processMempool ⟨[], []⟩ [] [(1, ⟨[], [], [(some 7, 50)], 0, 100⟩)] [] =
      .ok ⟨[(1, ⟨[], [], [(some 7, 50)], 0, 100⟩)], [(some 7, [1])]⟩ ∧
    mempoolConsistent ⟨[(1, ⟨[], [], [(some 7, 50)], 0, 100⟩)], [(some 7, [1])]⟩ :=
  ⟨mempoolConsistent_empty, rfl,
   (mempool_refresh_consistent ⟨[], []⟩ [] [(1, ⟨[], [], [(some 7, 50)], 0, 100⟩)] []
      ⟨[(1, ⟨[], [], [(some 7, 50)], 0, 100⟩)], [(some 7, [1])]⟩
      mempoolConsistent_empty (by decide) (by decide) rfl).1⟩
